import Mathlib

/-!
Verification of the OpenPNM `LinearSolver` transport-assembly module
(`OpenPNM/Algorithms/__LinearSolver__.py`) and the `minpore` throat-diameter
model (`OpenPNM/Geometry/models/throat_diameter.py`).

The shallow embedding below translates the Python/NumPy source into Lean:
NumPy float arrays become `ℕ → ℚ` functions or `List ℚ` (the code performs
exact comparisons and rational arithmetic only, so `ℚ` is a faithful carrier),
masks become decidable filters, sparse COO triplet arrays become
`List (ℕ × ℕ × ℚ)` lists whose duplicate positions are summed (the `tocsr`
duplicate-summing semantics), and the raised exceptions become an `Except`
error type.  The code targets the NumPy of its era (it negates boolean arrays
with unary minus, which later NumPy removed); boolean-mask indexing is
therefore embedded with that era's semantics: a mask shorter or longer than
the indexed array selects the positions where the mask is true and fails with
an `IndexError` exactly when a selected position is out of range.

Methods of the network object (`find_neighbor_pores`, `find_connecting_throat`,
`find_neighbor_throats`) and `GenericAlgorithm.run` are code of this
repository that is not part of the provided source; they are modelled from the
spec where needed, each marked `Modelled from the spec:` in its doc comment.
-/

namespace OpenPNM

/-- A pore network as consumed by the linear solver: the pore count, the
throat connection pairs (`throat.conns`, rows `[tpore1, tpore2]`), the
`'internal'` pore label, the throat cross sections (`throat.cross_section`),
pore coordinates (`pore.coords`) and the labelled pore faces
(`get_pore_indices(label)`). -/
structure Network where
  numPores : ℕ
  conns : List (ℕ × ℕ)
  internal : ℕ → Bool
  crossSection : ℕ → ℚ
  coords : ℕ → ℚ × ℚ × ℚ
  faceLabel : String → List ℕ

/-- Errors surfaced by the solver pipeline.  `configurationError` is the
`Exception('No boundary condition has been applied to this network.')` raised
by `_do_one_inner_iteration`; `indexError` is a NumPy indexing failure;
`inputShapeError` is the dedicated shape-mismatch error named by the spec
(nothing in the code raises it). -/
inductive Err where
  | configurationError : Err
  | indexError : Err
  | inputShapeError : Err
deriving DecidableEq

/-- One COO sparse-matrix triplet `(row, col, data)`. -/
abbrev Entry := ℕ × ℕ × ℚ

/-- Sum of the data values of a triplet list. -/
def V (es : List Entry) : ℚ := (es.map fun e => e.2.2).sum

/-- `sp.unique`: the distinct values of a list, sorted ascending. -/
def npUnique (l : List ℚ) : List ℚ := l.dedup.insertionSort (· ≤ ·)

/-- Lines 132-134: every pore that is not `'internal'` and still has kind 0
is forced to kind 3 (Neumann-insulated) at assembly time. -/
def defaultInsulated (net : Network) (bct : ℕ → ℕ) : ℕ → ℕ :=
  fun p => if p < net.numPores ∧ net.internal p = false ∧ bct p = 0 then 3 else bct p

/-- Modelled from the spec: `find_neighbor_pores(f, mode='not_intersection',
excl_self=True)` — the neighbours of the pore set `f`, excluding members of
`f` itself ("find the group's ... neighbors"). -/
def findNeighborPores (net : Network) (f : List ℕ) : List ℕ :=
  (List.range net.numPores).filter fun p =>
    !f.contains p &&
      net.conns.any fun c => (f.contains c.1 && c.2 == p) || (f.contains c.2 && c.1 == p)

/-- Modelled from the spec: `find_connecting_throat(f, fn)` — "the connecting
edges" between the pore set `f` and the pore set `fn`: every throat with one
endpoint in `f` and the other in `fn`. -/
def findConnectingThroats (net : Network) (f fn : List ℕ) : List ℕ :=
  (List.range net.conns.length).filter fun t =>
    let c := net.conns.getD t (0, 0)
    (f.contains c.1 && fn.contains c.2) || (f.contains c.2 && fn.contains c.1)

/-- Lines 164-170, one iteration of the Neumann-flux conversion loop: the
pores of `fluxPores` whose current value equals `v` form the group `f`; its
neighbours are filtered to the `'internal'` ones; the group is reclassified to
kind 4 with value `sum(BCvalues[f] * cross_section[ft])`, which (all members
of `f` carrying the value `v`) is `∑ t ∈ ft, v * cross_section t`. -/
def fluxGroupStep (net : Network) (fluxPores : List ℕ)
    (st : (ℕ → ℕ) × (ℕ → ℚ)) (v : ℚ) : (ℕ → ℕ) × (ℕ → ℚ) :=
  let f := fluxPores.filter fun p => st.2 p = v
  let fn := (findNeighborPores net f).filter fun p => net.internal p
  let ft := findConnectingThroats net f fn
  let newval := (ft.map fun t => v * net.crossSection t).sum
  (fun p => if f.contains p then 4 else st.1 p,
   fun p => if f.contains p then newval else st.2 p)

/-- Line 162: `flux_pores`, the pores of kind 2 (fixed before the loop). -/
def fluxPoresOf (net : Network) (bct : ℕ → ℕ) : List ℕ :=
  (List.range net.numPores).filter fun p => bct p = 2

/-- Lines 161-170: if any pore has kind 2, loop over the distinct flux values
(in `sp.unique`'s ascending order) converting each equal-value group of flux
pores into a kind-4 (grouped-rate) set. -/
def fluxConvert (net : Network) (bct : ℕ → ℕ) (bcv : ℕ → ℚ) : (ℕ → ℕ) × (ℕ → ℚ) :=
  if (List.range net.numPores).any fun p => bct p == 2 then
    (npUnique ((fluxPoresOf net bct).map bcv)).foldl
      (fluxGroupStep net (fluxPoresOf net bct)) (bct, bcv)
  else (bct, bcv)

/-- Line 177: the tiny superpore coupling conductance `1e-60`. -/
def gSuper : ℚ := 1 / 10 ^ 60

/-- One iteration (lines 180-187) of the superpore loop for the distinct
value `iv.2` at position `iv.1`: the kind-4 pores carrying that value are
coupled to the auxiliary row/column `dim - iv.1 - 1` in both directions. -/
def superBlock (N dim : ℕ) (bct : ℕ → ℕ) (bcv : ℕ → ℚ) (iv : ℕ × ℚ) : List Entry :=
  let neu := (List.range N).filter fun p => bct p = 4 ∧ bcv p = iv.2
  (neu.map fun p => (p, dim - iv.1 - 1, gSuper)) ++
    (neu.map fun p => (dim - iv.1 - 1, p, gSuper))

/-- Lines 179-187: for each distinct grouped-rate value (position `item` in
the sorted distinct list `extera`), couple every kind-4 pore carrying that
value to the auxiliary row/column `dim - item - 1`, symmetrically, with
conductance `gSuper`. -/
def superEntries (N dim : ℕ) (bct : ℕ → ℕ) (bcv : ℕ → ℚ) (extera : List ℚ) : List Entry :=
  extera.enum.flatMap (superBlock N dim bct bcv)

/-- Lines 195-198: one diagonal entry of value 1 for every Dirichlet pore. -/
def dirDiagEntries (N : ℕ) (bct : ℕ → ℕ) : List Entry :=
  ((List.range N).filter fun p => bct p = 1).map fun p => (p, p, (1 : ℚ))

/-- Lines 200-201: a copy of the data with every entry whose row is a
Dirichlet pore zeroed. -/
def tempEntries (N : ℕ) (bct : ℕ → ℕ) (es : List Entry) : List Entry :=
  es.map fun e => (e.1, e.2.1, if e.1 < N ∧ bct e.1 = 1 then 0 else e.2.2)

/-- Lines 203-204: the loop `S_temp[row[i]] = S_temp[row[i]] - temp_data[i]`. -/
def stempLoop (es : List Entry) (S : ℕ → ℚ) : ℕ → ℚ :=
  es.foldl (fun S e => Function.update S e.1 (S e.1 - e.2.2)) S

/-- Lines 200-208: the diagonal-closure entries — for every non-Dirichlet row
`r` of the full matrix (superpore rows included), one diagonal entry holding
the negated sum of the data already accumulated in that row. -/
def closureEntries (N dim : ℕ) (bct : ℕ → ℕ) (pre : List Entry) : List Entry :=
  let S := stempLoop (tempEntries N bct pre) (fun _ => 0)
  ((List.range dim).filter fun r => ¬(r < N ∧ bct r = 1)).map fun r => (r, r, S r)

/-- Result of `_build_coefficient_matrix`: the COO triplets, the matrix
dimension `_Coeff_dimension`, the mutated `_BCtypes` and `_BCvalues`, and
`_extera_Neumann_equations` (empty when no kind-4 pore exists). -/
structure BuildResult where
  entries : List Entry
  dim : ℕ
  bct : ℕ → ℕ
  bcv : ℕ → ℚ
  extera : List ℚ

/-- Lines 141-149: entries `(tpore1, tpore2, g)` for the throats whose first
endpoint is not Dirichlet (`loc1`). -/
def offDiag1 (net : Network) (bct₁ : ℕ → ℕ) (dataMain : ℕ → ℚ) : List Entry :=
  net.conns.enum.filterMap fun tc =>
    if bct₁ tc.2.1 = 1 then none else some (tc.2.1, tc.2.2, dataMain tc.1)

/-- Lines 151-156: entries `(tpore2, tpore1, g)` for the throats whose second
endpoint is not Dirichlet (`loc2`). -/
def offDiag2 (net : Network) (bct₁ : ℕ → ℕ) (dataMain : ℕ → ℚ) : List Entry :=
  net.conns.enum.filterMap fun tc =>
    if bct₁ tc.2.2 = 1 then none else some (tc.2.2, tc.2.1, dataMain tc.1)

/-- `(self._BCtypes==4).any()` over the pores. -/
def kind4Any (N : ℕ) (bct : ℕ → ℕ) : Bool := (List.range N).any fun p => bct p == 4

/-- Line 174: `_extera_Neumann_equations`, the sorted distinct values among
the kind-4 pores (empty when there is none: line 190 stores the scalar `0`,
which the guarded loops never iterate). -/
def exteraList (N : ℕ) (bct : ℕ → ℕ) (bcv : ℕ → ℚ) : List ℚ :=
  if kind4Any N bct then
    npUnique (((List.range N).filter fun p => bct p = 4).map bcv)
  else []

/-- The `_BCtypes`/`_BCvalues` state after the boundary default (lines
132-134) and the flux-group conversion (lines 161-170). -/
def convertedBC (net : Network) (bct₀ : ℕ → ℕ) (bcv₀ : ℕ → ℚ) :
    (ℕ → ℕ) × (ℕ → ℚ) :=
  fluxConvert net (defaultInsulated net bct₀) bcv₀

/-- All COO entries accumulated before the diagonal closure: the off-diagonal
conductance entries, the superpore couplings and the Dirichlet diagonal. -/
def preEntries (net : Network) (bct₀ : ℕ → ℕ) (bcv₀ : ℕ → ℚ)
    (dataMain : ℕ → ℚ) : List Entry :=
  let N := net.numPores
  let bct₁ := defaultInsulated net bct₀
  let st := convertedBC net bct₀ bcv₀
  let extera := exteraList N st.1 st.2
  let dim := N + extera.length
  offDiag1 net bct₁ dataMain ++ offDiag2 net bct₁ dataMain ++
    (if kind4Any N st.1 then superEntries N dim st.1 st.2 extera else []) ++
    dirDiagEntries N st.1

/-- Lines 130-213 of `_build_coefficient_matrix`, after conductance
validation: `dataMain t` is the (broadcast) conductance of throat `t`. -/
def buildCore (net : Network) (bct₀ : ℕ → ℕ) (bcv₀ : ℕ → ℚ) (dataMain : ℕ → ℚ) :
    BuildResult :=
  let N := net.numPores
  let st := convertedBC net bct₀ bcv₀
  let extera := exteraList N st.1 st.2
  let dim := N + extera.length
  let pre := preEntries net bct₀ bcv₀ dataMain
  { entries := pre ++ closureEntries N dim st.1 pre
    dim := dim
    bct := st.1
    bcv := st.2
    extera := extera }

/-- Lines 146-147: a size-1 conductance is broadcast to all throats. -/
def broadcastG (M : ℕ) (g : List ℚ) : List ℚ :=
  if g.length = 1 then List.replicate M (g.headD 0) else g

/-- Era-NumPy boolean-mask indexing `a[mask]` succeeds iff every selected
position is within `a`. -/
def maskIndexOk (len : ℕ) (mask : List Bool) : Bool :=
  (List.range mask.length).all fun i => !mask.getD i false || decide (i < len)

/-- `_build_coefficient_matrix` (lines 130-213).  The conductance is broadcast
if scalar; the masked selections `data_main[loc1]` and `data_main[loc2]`
(lines 149, 156) raise a NumPy `IndexError` when a selected position lies
outside the conductance array; otherwise the assembly of `buildCore` runs. -/
def buildCoefficientMatrix (net : Network) (bct₀ : ℕ → ℕ) (bcv₀ : ℕ → ℚ)
    (g : List ℚ) : Except Err BuildResult :=
  let M := net.conns.length
  let bct₁ := defaultInsulated net bct₀
  let loc1 : List Bool := net.conns.map fun c => decide (bct₁ c.1 ≠ 1)
  let loc2 : List Bool := net.conns.map fun c => decide (bct₁ c.2 ≠ 1)
  let dataMain := broadcastG M g
  if maskIndexOk dataMain.length loc1 && maskIndexOk dataMain.length loc2 then
    .ok (buildCore net bct₀ bcv₀ fun t => dataMain.getD t 0)
  else .error .indexError

/-- The assembled sparse matrix as an entry function: `tocsr` sums duplicate
COO positions (line 210-211). -/
def Aentry (R : BuildResult) (r c : ℕ) : ℚ :=
  V (R.entries.filter fun e => e.1 = r ∧ e.2.1 = c)

/-- `_build_RHS_matrix` (lines 216-229): zero vector, Dirichlet rows get the
Dirichlet value, kind-5 rows get their individual rate, and each superpore row
`dim - item - 1` gets the distinct grouped rate `extera[item]`. -/
def buildRHS (net : Network) (R : BuildResult) : ℕ → ℚ :=
  let N := net.numPores
  let any4 := (List.range N).any fun p => R.bct p == 4
  fun r =>
    if any4 ∧ N ≤ r ∧ r < R.dim then R.extera.getD (R.dim - 1 - r) 0
    else if r < N ∧ R.bct r = 5 then R.bcv r
    else if r < N ∧ R.bct r = 1 then R.bcv r
    else 0

/-- `_do_one_inner_iteration` (lines 36-50): abort when no boundary condition
of any kind has been applied, otherwise build the matrix and RHS and hand them
to the sparse direct solver (`sprslin.spsolve`, external — supplied here as an
oracle), returning the solution restricted to the real pores. -/
def doOneInnerIteration (spsolve : (ℕ → ℕ → ℚ) → (ℕ → ℚ) → (ℕ → ℚ))
    (net : Network) (bct₀ : ℕ → ℕ) (bcv₀ : ℕ → ℚ) (g : List ℚ) :
    Except Err (ℕ → ℚ) :=
  if (List.range net.numPores).all fun p => bct₀ p == 0 then
    .error .configurationError
  else
    match buildCoefficientMatrix net bct₀ bcv₀ g with
    | .error e => .error e
    | .ok R =>
      let B := buildRHS net R
      let X := spsolve (Aentry R) B
      .ok fun p => if p < net.numPores then X p else 0

/-! ### Helper lemmas about COO triplet lists -/

/-- Sum of the data accumulated in row `r` of a triplet list. -/
def rowTotal (es : List Entry) (r : ℕ) : ℚ := V (es.filter fun e => e.1 = r)

/-- The entry function of a triplet list (duplicates summed). -/
def entryVal (es : List Entry) (r c : ℕ) : ℚ :=
  V (es.filter fun e => e.1 = r ∧ e.2.1 = c)

theorem Aentry_eq_entryVal (R : BuildResult) (r c : ℕ) :
    Aentry R r c = entryVal R.entries r c := rfl

theorem V_nil : V [] = 0 := rfl

theorem V_cons (e : Entry) (es : List Entry) : V (e :: es) = e.2.2 + V es := by
  simp [V]

theorem V_append (a b : List Entry) : V (a ++ b) = V a + V b := by
  simp [V]

theorem rowTotal_nil (r : ℕ) : rowTotal [] r = 0 := rfl

theorem rowTotal_cons (e : Entry) (es : List Entry) (r : ℕ) :
    rowTotal (e :: es) r = (if e.1 = r then e.2.2 else 0) + rowTotal es r := by
  simp only [rowTotal, List.filter_cons]
  split
  · simp_all [V_cons]
  · simp_all

theorem rowTotal_append (a b : List Entry) (r : ℕ) :
    rowTotal (a ++ b) r = rowTotal a r + rowTotal b r := by
  simp [rowTotal, List.filter_append, V_append]

theorem rowTotal_eq_zero {es : List Entry} {r : ℕ} (h : ∀ e ∈ es, e.1 ≠ r) :
    rowTotal es r = 0 := by
  induction es with
  | nil => rfl
  | cons e es ih =>
    rw [rowTotal_cons, if_neg (h e (List.mem_cons_self e es)),
      ih fun x hx => h x (List.mem_cons_of_mem e hx), add_zero]

theorem entryVal_cons (e : Entry) (es : List Entry) (r c : ℕ) :
    entryVal (e :: es) r c =
      (if e.1 = r ∧ e.2.1 = c then e.2.2 else 0) + entryVal es r c := by
  simp only [entryVal, List.filter_cons]
  split
  · simp_all [V_cons]
  · simp_all

theorem entryVal_append (a b : List Entry) (r c : ℕ) :
    entryVal (a ++ b) r c = entryVal a r c + entryVal b r c := by
  simp [entryVal, List.filter_append, V_append]

theorem entryVal_eq_zero {es : List Entry} {r c : ℕ}
    (h : ∀ e ∈ es, ¬(e.1 = r ∧ e.2.1 = c)) : entryVal es r c = 0 := by
  induction es with
  | nil => rfl
  | cons e es ih =>
    rw [entryVal_cons, if_neg (h e (List.mem_cons_self e es)),
      ih fun x hx => h x (List.mem_cons_of_mem e hx), add_zero]

/-- Summing the entry function of a row over all columns below a bound that
covers every column of the row recovers the row's accumulated total. -/
theorem sum_entryVal (D r : ℕ) (es : List Entry)
    (h : ∀ e ∈ es, e.1 = r → e.2.1 < D) :
    ∑ c ∈ Finset.range D, entryVal es r c = rowTotal es r := by
  induction es with
  | nil => simp [entryVal, rowTotal, V]
  | cons e es ih =>
    simp only [entryVal_cons, rowTotal_cons, Finset.sum_add_distrib]
    rw [ih fun x hx hr => h x (List.mem_cons_of_mem e hx) hr]
    congr 1
    by_cases he : e.1 = r
    · have hc : e.2.1 < D := h e (List.mem_cons_self e es) he
      simp only [he, true_and]
      rw [Finset.sum_ite_eq (Finset.range D) e.2.1 fun _ => e.2.2]
      simp [hc]
    · simp [he]

theorem stempLoop_eq (es : List Entry) :
    ∀ (S : ℕ → ℚ) (r : ℕ), stempLoop es S r = S r - rowTotal es r := by
  induction es with
  | nil => intro S r; simp [stempLoop, rowTotal_nil]
  | cons e es ih =>
    intro S r
    have hstep : stempLoop (e :: es) S =
        stempLoop es (Function.update S e.1 (S e.1 - e.2.2)) := rfl
    rw [hstep, ih, rowTotal_cons]
    by_cases hr : e.1 = r
    · subst hr; rw [Function.update_same, if_pos rfl]; ring
    · rw [Function.update_noteq (fun hne => hr hne.symm), if_neg hr]; ring

theorem rowTotal_tempEntries (N : ℕ) (bct : ℕ → ℕ) (es : List Entry) (r : ℕ)
    (h : ¬(r < N ∧ bct r = 1)) :
    rowTotal (tempEntries N bct es) r = rowTotal es r := by
  induction es with
  | nil => rfl
  | cons e es ih =>
    simp only [tempEntries, List.map_cons] at *
    rw [rowTotal_cons, rowTotal_cons, ih]
    congr 1
    by_cases hr : e.1 = r
    · rw [if_pos hr, if_pos hr, if_neg]; rw [hr]; exact h
    · rw [if_neg hr, if_neg hr]

theorem rowTotal_map_diag (l : List ℕ) (f : ℕ → ℚ) (r : ℕ) (hnd : l.Nodup) :
    rowTotal (l.map fun q => (q, q, f q)) r = if r ∈ l then f r else 0 := by
  induction l with
  | nil => simp [rowTotal_nil]
  | cons q l ih =>
    simp only [List.map_cons, rowTotal_cons]
    rcases List.nodup_cons.mp hnd with ⟨hq, hl⟩
    by_cases hqr : q = r
    · subst hqr
      rw [if_pos rfl, ih hl, if_neg hq, if_pos (List.mem_cons_self q l), add_zero]
    · rw [if_neg hqr, ih hl, zero_add]
      by_cases hrl : r ∈ l
      · rw [if_pos hrl, if_pos (List.mem_cons_of_mem q hrl)]
      · rw [if_neg hrl, if_neg]
        simp [hqr, hrl, Ne.symm hqr]

/-! ### Membership characterizations of the assembled entry lists -/

theorem mem_offDiag1 {net : Network} {bct₁ : ℕ → ℕ} {dataMain : ℕ → ℚ} {e : Entry} :
    e ∈ offDiag1 net bct₁ dataMain ↔
      ∃ tc ∈ net.conns.enum, bct₁ tc.2.1 ≠ 1 ∧ e = (tc.2.1, tc.2.2, dataMain tc.1) := by
  simp only [offDiag1, List.mem_filterMap]
  constructor
  · rintro ⟨tc, htc, hf⟩
    by_cases h1 : bct₁ tc.2.1 = 1
    · simp [h1] at hf
    · simp only [h1, if_false, Option.some.injEq] at hf
      exact ⟨tc, htc, h1, hf.symm⟩
  · rintro ⟨tc, htc, h1, rfl⟩
    exact ⟨tc, htc, by simp [h1]⟩

theorem mem_offDiag2 {net : Network} {bct₁ : ℕ → ℕ} {dataMain : ℕ → ℚ} {e : Entry} :
    e ∈ offDiag2 net bct₁ dataMain ↔
      ∃ tc ∈ net.conns.enum, bct₁ tc.2.2 ≠ 1 ∧ e = (tc.2.2, tc.2.1, dataMain tc.1) := by
  simp only [offDiag2, List.mem_filterMap]
  constructor
  · rintro ⟨tc, htc, hf⟩
    by_cases h1 : bct₁ tc.2.2 = 1
    · simp [h1] at hf
    · simp only [h1, if_false, Option.some.injEq] at hf
      exact ⟨tc, htc, h1, hf.symm⟩
  · rintro ⟨tc, htc, h1, rfl⟩
    exact ⟨tc, htc, by simp [h1]⟩

theorem mem_dirDiagEntries {N : ℕ} {bct : ℕ → ℕ} {e : Entry} :
    e ∈ dirDiagEntries N bct ↔ ∃ p, p < N ∧ bct p = 1 ∧ e = (p, p, (1 : ℚ)) := by
  simp only [dirDiagEntries, List.mem_map, List.mem_filter, List.mem_range,
    decide_eq_true_eq]
  constructor
  · rintro ⟨p, ⟨hp, hb⟩, rfl⟩; exact ⟨p, hp, hb, rfl⟩
  · rintro ⟨p, hp, hb, rfl⟩; exact ⟨p, ⟨hp, hb⟩, rfl⟩

theorem mem_superEntries {N dim : ℕ} {bct : ℕ → ℕ} {bcv : ℕ → ℚ}
    {extera : List ℚ} {e : Entry} :
    e ∈ superEntries N dim bct bcv extera ↔
      ∃ iv ∈ extera.enum, ∃ p, p < N ∧ bct p = 4 ∧ bcv p = iv.2 ∧
        (e = (p, dim - iv.1 - 1, gSuper) ∨ e = (dim - iv.1 - 1, p, gSuper)) := by
  simp only [superEntries, superBlock, List.mem_flatMap, List.mem_append,
    List.mem_map, List.mem_filter, List.mem_range, decide_eq_true_eq]
  constructor
  · rintro ⟨iv, hiv, (⟨p, ⟨⟨hp, h4, hv⟩, rfl⟩⟩ | ⟨p, ⟨⟨hp, h4, hv⟩, rfl⟩⟩)⟩
    · exact ⟨iv, hiv, p, hp, h4, hv, Or.inl rfl⟩
    · exact ⟨iv, hiv, p, hp, h4, hv, Or.inr rfl⟩
  · rintro ⟨iv, hiv, p, hp, h4, hv, (rfl | rfl)⟩
    · exact ⟨iv, hiv, Or.inl ⟨p, ⟨⟨hp, h4, hv⟩, rfl⟩⟩⟩
    · exact ⟨iv, hiv, Or.inr ⟨p, ⟨⟨hp, h4, hv⟩, rfl⟩⟩⟩

theorem mem_closureEntries {N dim : ℕ} {bct : ℕ → ℕ} {pre : List Entry} {e : Entry} :
    e ∈ closureEntries N dim bct pre ↔
      ∃ r, r < dim ∧ ¬(r < N ∧ bct r = 1) ∧
        e = (r, r, stempLoop (tempEntries N bct pre) (fun _ => 0) r) := by
  simp only [closureEntries, List.mem_map, List.mem_filter, List.mem_range,
    decide_eq_true_eq]
  constructor
  · rintro ⟨r, ⟨hr, hnd⟩, rfl⟩; exact ⟨r, hr, by simpa using hnd, rfl⟩
  · rintro ⟨r, hr, hnd, rfl⟩; exact ⟨r, ⟨hr, by simpa using hnd⟩, rfl⟩

theorem mem_of_mem_enum {l : List (ℕ × ℕ)} {tc : ℕ × (ℕ × ℕ)}
    (h : tc ∈ l.enum) : tc.2 ∈ l :=
  List.get?_mem (List.mem_enum_iff_get?.mp h)

theorem fst_lt_of_mem_enum {α : Type} {l : List α} {tc : ℕ × α}
    (h : tc ∈ l.enum) : tc.1 < l.length := by
  have := List.mem_enum_iff_get?.mp h
  exact List.get?_eq_some.mp this |>.1

/-! ### Row and column bounds of the assembled entries -/

theorem preEntries_bounds (net : Network) (bct₀ : ℕ → ℕ) (bcv₀ : ℕ → ℚ)
    (dataMain : ℕ → ℚ)
    (hconn : ∀ c ∈ net.conns, c.1 < net.numPores ∧ c.2 < net.numPores) :
    ∀ e ∈ preEntries net bct₀ bcv₀ dataMain,
      e.1 < net.numPores +
          (exteraList net.numPores (convertedBC net bct₀ bcv₀).1
            (convertedBC net bct₀ bcv₀).2).length ∧
      e.2.1 < net.numPores +
          (exteraList net.numPores (convertedBC net bct₀ bcv₀).1
            (convertedBC net bct₀ bcv₀).2).length := by
  intro e he
  simp only [preEntries, List.append_assoc, List.mem_append] at he
  rcases he with h | h | h | h
  · rcases mem_offDiag1.mp h with ⟨tc, htc, -, rfl⟩
    have := hconn tc.2 (mem_of_mem_enum htc)
    constructor <;> dsimp only <;> omega
  · rcases mem_offDiag2.mp h with ⟨tc, htc, -, rfl⟩
    have := hconn tc.2 (mem_of_mem_enum htc)
    constructor <;> dsimp only <;> omega
  · rcases hk : kind4Any net.numPores (convertedBC net bct₀ bcv₀).1 with _ | _
    · rw [hk] at h; simp at h
    · rw [hk] at h; simp only [if_true] at h
      rcases mem_superEntries.mp h with ⟨iv, hiv, p, hp, -, -, (rfl | rfl)⟩ <;>
        · have := fst_lt_of_mem_enum hiv
          constructor <;> dsimp only <;> omega
  · rcases mem_dirDiagEntries.mp h with ⟨p, hp, -, rfl⟩
    constructor <;> dsimp only <;> omega

theorem buildCore_entry_bounds (net : Network) (bct₀ : ℕ → ℕ) (bcv₀ : ℕ → ℚ)
    (dataMain : ℕ → ℚ)
    (hconn : ∀ c ∈ net.conns, c.1 < net.numPores ∧ c.2 < net.numPores) :
    ∀ e ∈ (buildCore net bct₀ bcv₀ dataMain).entries,
      e.1 < (buildCore net bct₀ bcv₀ dataMain).dim ∧
      e.2.1 < (buildCore net bct₀ bcv₀ dataMain).dim := by
  intro e he
  rcases List.mem_append.mp he with h | h
  · exact preEntries_bounds net bct₀ bcv₀ dataMain hconn e h
  · rcases mem_closureEntries.mp h with ⟨r, hr, -, rfl⟩
    exact ⟨hr, hr⟩

/-! ### The diagonal-closure row-sum property -/

theorem buildCore_rowTotal_zero (net : Network) (bct₀ : ℕ → ℕ) (bcv₀ : ℕ → ℚ)
    (dataMain : ℕ → ℚ)
    (hconn : ∀ c ∈ net.conns, c.1 < net.numPores ∧ c.2 < net.numPores)
    (r : ℕ)
    (hnd : ¬(r < net.numPores ∧ (buildCore net bct₀ bcv₀ dataMain).bct r = 1)) :
    rowTotal (buildCore net bct₀ bcv₀ dataMain).entries r = 0 := by
  set N := net.numPores with hN
  set st := convertedBC net bct₀ bcv₀ with hst
  set extera := exteraList N st.1 st.2 with hex
  set dim := N + extera.length with hdim
  set pre := preEntries net bct₀ bcv₀ dataMain with hpre
  have hents : (buildCore net bct₀ bcv₀ dataMain).entries =
      pre ++ closureEntries N dim st.1 pre := rfl
  have hbct : (buildCore net bct₀ bcv₀ dataMain).bct = st.1 := rfl
  rw [hbct] at hnd
  rw [hents, rowTotal_append]
  have hclo : rowTotal (closureEntries N dim st.1 pre) r =
      if r ∈ (List.range dim).filter (fun q => ¬(q < N ∧ st.1 q = 1)) then
        stempLoop (tempEntries N st.1 pre) (fun _ => 0) r else 0 := by
    rw [closureEntries, rowTotal_map_diag _ _ _ ((List.nodup_range dim).filter _)]
  by_cases hrdim : r < dim
  · have hmem : r ∈ (List.range dim).filter (fun q => ¬(q < N ∧ st.1 q = 1)) := by
      simp only [List.mem_filter, List.mem_range, decide_eq_true_eq]
      exact ⟨hrdim, by simpa using hnd⟩
    rw [hclo, if_pos hmem, stempLoop_eq, rowTotal_tempEntries _ _ _ _ hnd]
    ring
  · have hnm : r ∉ (List.range dim).filter (fun q => ¬(q < N ∧ st.1 q = 1)) := by
      simp only [List.mem_filter, List.mem_range]
      exact fun hc => hrdim hc.1
    rw [hclo, if_neg hnm]
    have hz : rowTotal pre r = 0 := by
      refine rowTotal_eq_zero fun e he hre => hrdim ?_
      have := (preEntries_bounds net bct₀ bcv₀ dataMain hconn e he).1
      rw [hdim, hex, hst, hN]
      omega
    rw [hz, add_zero]

/-- Claim C1: in the assembled coefficient matrix, every row whose node is not
Dirichlet (kind 1) — flux-converted and superpore rows included — has its
diagonal entry equal to the negated sum of its off-diagonal entries, hence a
zero row sum. -/
theorem claim_C1_rowsum_zero (net : Network) (bct₀ : ℕ → ℕ) (bcv₀ : ℕ → ℚ)
    (g : List ℚ) (R : BuildResult)
    (hok : buildCoefficientMatrix net bct₀ bcv₀ g = .ok R)
    (hconn : ∀ c ∈ net.conns, c.1 < net.numPores ∧ c.2 < net.numPores)
    (r : ℕ) (hr : r < R.dim)
    (hnd : ¬(r < net.numPores ∧ R.bct r = 1)) :
    (∑ c ∈ Finset.range R.dim, Aentry R r c) = 0 ∧
    Aentry R r r = -∑ c ∈ (Finset.range R.dim).erase r, Aentry R r c := by
  have hR : R = buildCore net bct₀ bcv₀
      (fun t => (broadcastG net.conns.length g).getD t 0) := by
    simp only [buildCoefficientMatrix] at hok
    split at hok
    · exact (Except.ok.injEq _ _ ▸ hok).symm
    · exact absurd hok (by simp)
  subst hR
  have hsum : (∑ c ∈ Finset.range
        (buildCore net bct₀ bcv₀ (fun t => (broadcastG net.conns.length g).getD t 0)).dim,
        Aentry (buildCore net bct₀ bcv₀ fun t => (broadcastG net.conns.length g).getD t 0) r c) = 0 := by
    rw [show (fun c => Aentry (buildCore net bct₀ bcv₀ fun t =>
        (broadcastG net.conns.length g).getD t 0) r c) = fun c => entryVal
        (buildCore net bct₀ bcv₀ fun t => (broadcastG net.conns.length g).getD t 0).entries r c
      from rfl] at *
    rw [sum_entryVal _ _ _ fun e he _ =>
      (buildCore_entry_bounds net bct₀ bcv₀ _ hconn e he).2]
    exact buildCore_rowTotal_zero net bct₀ bcv₀ _ hconn r hnd
  refine ⟨hsum, ?_⟩
  have := Finset.sum_erase_add (Finset.range _)
    (fun c => Aentry (buildCore net bct₀ bcv₀ fun t =>
      (broadcastG net.conns.length g).getD t 0) r c) (Finset.mem_range.mpr hr)
  rw [hsum] at this
  linarith

/-! ### Dirichlet pores survive the boundary default and the flux conversion -/

theorem defaultInsulated_one_iff (net : Network) (bct₀ : ℕ → ℕ) (p : ℕ) :
    defaultInsulated net bct₀ p = 1 ↔ bct₀ p = 1 := by
  unfold defaultInsulated
  split
  · rename_i h; simp [h.2.2]
  · rfl

theorem fluxGroupStep_not_mem (net : Network) (fluxPores : List ℕ)
    (st : (ℕ → ℕ) × (ℕ → ℚ)) (v : ℚ) (p : ℕ) (hp : p ∉ fluxPores) :
    (fluxGroupStep net fluxPores st v).1 p = st.1 p ∧
    (fluxGroupStep net fluxPores st v).2 p = st.2 p := by
  have hf : (fluxPores.filter fun q => st.2 q = v).contains p = false := by
    have : p ∉ fluxPores.filter fun q => st.2 q = v :=
      fun hmem => hp (List.mem_of_mem_filter hmem)
    simp [this]
  constructor <;> · show (if _ then _ else _) = _; rw [hf]; simp

theorem fluxFold_not_mem (net : Network) (fluxPores : List ℕ) (L : List ℚ) :
    ∀ (st : (ℕ → ℕ) × (ℕ → ℚ)) (p : ℕ), p ∉ fluxPores →
      (L.foldl (fluxGroupStep net fluxPores) st).1 p = st.1 p ∧
      (L.foldl (fluxGroupStep net fluxPores) st).2 p = st.2 p := by
  induction L with
  | nil => intro st p _; exact ⟨rfl, rfl⟩
  | cons v L ih =>
    intro st p hp
    rcases fluxGroupStep_not_mem net fluxPores st v p hp with ⟨h1, h2⟩
    rcases ih (fluxGroupStep net fluxPores st v) p hp with ⟨g1, g2⟩
    exact ⟨g1.trans h1, g2.trans h2⟩

theorem fluxGroupStep_type (net : Network) (fluxPores : List ℕ)
    (st : (ℕ → ℕ) × (ℕ → ℚ)) (v : ℚ) (p : ℕ) :
    (fluxGroupStep net fluxPores st v).1 p = st.1 p ∨
    (fluxGroupStep net fluxPores st v).1 p = 4 := by
  show (if _ then _ else _) = _ ∨ (if _ then _ else _) = _
  split
  · exact Or.inr rfl
  · exact Or.inl rfl

theorem fluxFold_type (net : Network) (fluxPores : List ℕ) (L : List ℚ) :
    ∀ (st : (ℕ → ℕ) × (ℕ → ℚ)) (p : ℕ),
      (L.foldl (fluxGroupStep net fluxPores) st).1 p = st.1 p ∨
      (L.foldl (fluxGroupStep net fluxPores) st).1 p = 4 := by
  induction L with
  | nil => intro st p; exact Or.inl rfl
  | cons v L ih =>
    intro st p
    rcases ih (fluxGroupStep net fluxPores st v) p with h | h
    · rcases fluxGroupStep_type net fluxPores st v p with h2 | h2
      · exact Or.inl (h.trans h2)
      · exact Or.inr (h.trans h2)
    · exact Or.inr h

theorem convertedBC_one_iff (net : Network) (bct₀ : ℕ → ℕ) (bcv₀ : ℕ → ℚ) (p : ℕ) :
    (convertedBC net bct₀ bcv₀).1 p = 1 ↔ defaultInsulated net bct₀ p = 1 := by
  unfold convertedBC fluxConvert
  split
  · set bct₁ := defaultInsulated net bct₀
    constructor
    · intro h
      rcases fluxFold_type net _ _ (bct₁, bcv₀) p with h2 | h2
      · rw [h] at h2; exact h2.symm
      · rw [h] at h2; exact absurd h2 (by decide)
    · intro h
      have hp : p ∉ fluxPoresOf net bct₁ := by
        intro hmem
        have := (List.mem_filter.mp hmem).2
        simp only [decide_eq_true_eq] at this
        rw [h] at this; exact absurd this (by decide)
      rw [(fluxFold_not_mem net _ _ (bct₁, bcv₀) p hp).1]
      exact h
  · exact Iff.rfl

theorem convertedBC_of_ne_two (net : Network) (bct₀ : ℕ → ℕ) (bcv₀ : ℕ → ℚ)
    (p : ℕ) (h : defaultInsulated net bct₀ p ≠ 2) :
    (convertedBC net bct₀ bcv₀).1 p = defaultInsulated net bct₀ p ∧
    (convertedBC net bct₀ bcv₀).2 p = bcv₀ p := by
  unfold convertedBC fluxConvert
  split
  · set bct₁ := defaultInsulated net bct₀
    have hp : p ∉ fluxPoresOf net bct₁ := by
      intro hmem
      have := (List.mem_filter.mp hmem).2
      simp only [decide_eq_true_eq] at this
      exact h this
    exact fluxFold_not_mem net _ _ (bct₁, bcv₀) p hp
  · exact ⟨rfl, rfl⟩

/-! ### Identity rows for Dirichlet pores -/

theorem entryVal_map_diag (l : List ℕ) (f : ℕ → ℚ) (r c : ℕ) (hnd : l.Nodup) :
    entryVal (l.map fun q => (q, q, f q)) r c =
      if r ∈ l ∧ c = r then f r else 0 := by
  induction l with
  | nil => simp [entryVal, V]
  | cons a l ih =>
    simp only [List.map_cons, entryVal_cons]
    rcases List.nodup_cons.mp hnd with ⟨ha, hl⟩
    rw [ih hl]
    by_cases har : a = r
    · subst har
      by_cases hac : a = c
      · subst hac
        rw [if_pos ⟨rfl, rfl⟩, if_neg fun h => ha h.1,
          if_pos ⟨List.mem_cons_self a l, rfl⟩, add_zero]
      · rw [if_neg fun h => hac h.2, if_neg fun h => ha h.1,
          if_neg fun h => hac h.2.symm, add_zero]
    · rw [if_neg fun h => har h.1, zero_add]
      by_cases hrl : r ∈ l
      · by_cases hcr : c = r
        · rw [if_pos ⟨hrl, hcr⟩, if_pos ⟨List.mem_cons_of_mem a hrl, hcr⟩]
        · rw [if_neg fun h => hcr h.2, if_neg fun h => hcr h.2]
      · rw [if_neg fun h => hrl h.1,
          if_neg fun h => (List.mem_cons.mp h.1).elim (fun he => har he.symm) hrl]

theorem buildCore_dirichlet_row (net : Network) (bct₀ : ℕ → ℕ) (bcv₀ : ℕ → ℚ)
    (dataMain : ℕ → ℚ) (r : ℕ) (hrN : r < net.numPores) (hdir : bct₀ r = 1) :
    ∀ c, Aentry (buildCore net bct₀ bcv₀ dataMain) r c = if c = r then 1 else 0 := by
  intro c
  set N := net.numPores with hN
  set bct₁ := defaultInsulated net bct₀ with hb1
  set st := convertedBC net bct₀ bcv₀ with hst
  set extera := exteraList N st.1 st.2 with hex
  set dim := N + extera.length with hdim
  have hd1 : bct₁ r = 1 := (defaultInsulated_one_iff net bct₀ r).mpr hdir
  have hd2 : st.1 r = 1 := by
    rw [hst]; exact (convertedBC_one_iff net bct₀ bcv₀ r).mpr hd1
  have hents : (buildCore net bct₀ bcv₀ dataMain).entries =
      (offDiag1 net bct₁ dataMain ++ offDiag2 net bct₁ dataMain ++
        (if kind4Any N st.1 then superEntries N dim st.1 st.2 extera else []) ++
        dirDiagEntries N st.1) ++
      closureEntries N dim st.1 (preEntries net bct₀ bcv₀ dataMain) := rfl
  rw [Aentry_eq_entryVal, hents]
  rw [entryVal_append, entryVal_append, entryVal_append, entryVal_append]
  have h1 : entryVal (offDiag1 net bct₁ dataMain) r c = 0 := by
    refine entryVal_eq_zero fun e he hrc => ?_
    rcases mem_offDiag1.mp he with ⟨tc, -, hne, rfl⟩
    dsimp only at hrc
    exact hne (by rw [hrc.1]; exact hd1)
  have h2 : entryVal (offDiag2 net bct₁ dataMain) r c = 0 := by
    refine entryVal_eq_zero fun e he hrc => ?_
    rcases mem_offDiag2.mp he with ⟨tc, -, hne, rfl⟩
    dsimp only at hrc
    exact hne (by rw [hrc.1]; exact hd1)
  have h3 : entryVal (if kind4Any N st.1 then
      superEntries N dim st.1 st.2 extera else []) r c = 0 := by
    split
    · refine entryVal_eq_zero fun e he hrc => ?_
      rcases mem_superEntries.mp he with ⟨iv, hiv, p, hpN, hp4, -, (rfl | rfl)⟩
      · dsimp only at hrc
        rw [hrc.1] at hp4
        rw [hp4] at hd2
        exact absurd hd2 (by decide)
      · dsimp only at hrc
        have hitem := fst_lt_of_mem_enum hiv
        omega
    · exact entryVal_eq_zero fun e he _ => absurd he (List.not_mem_nil e)
  have h4 : entryVal (dirDiagEntries N st.1) r c = if c = r then 1 else 0 := by
    rw [dirDiagEntries, entryVal_map_diag _ _ _ _ ((List.nodup_range N).filter _)]
    have hmem : r ∈ (List.range N).filter fun p => st.1 p = 1 := by
      simp only [List.mem_filter, List.mem_range, decide_eq_true_eq]
      exact ⟨hrN, hd2⟩
    by_cases hcr : c = r
    · rw [if_pos ⟨hmem, hcr⟩, if_pos hcr]
    · rw [if_neg fun hc => hcr hc.2, if_neg hcr]
  have h5 : entryVal (closureEntries N dim st.1
      (preEntries net bct₀ bcv₀ dataMain)) r c = 0 := by
    refine entryVal_eq_zero fun e he hrc => ?_
    rcases mem_closureEntries.mp he with ⟨q, -, hq, rfl⟩
    dsimp only at hrc
    exact hq (by rw [hrc.1]; exact ⟨hrN, hd2⟩)
  rw [h1, h2, h3, h4, h5]
  ring

theorem buildRHS_dirichlet (net : Network) (R : BuildResult) (r : ℕ)
    (hrN : r < net.numPores) (hd : R.bct r = 1) :
    buildRHS net R r = R.bcv r := by
  unfold buildRHS
  rw [if_neg fun hc => by omega, if_neg fun hc => by rw [hd] at hc; omega,
    if_pos ⟨hrN, hd⟩]

/-- Claim C2: every Dirichlet (kind 1) node's assembled row is a pure identity
row — diagonal 1, off-diagonal 0 — its RHS entry is the node's Dirichlet
value, and a connection between two Dirichlet nodes contributes no matrix
entry in either direction. -/
theorem claim_C2_dirichlet_identity (net : Network) (bct₀ : ℕ → ℕ)
    (bcv₀ : ℕ → ℚ) (g : List ℚ) (R : BuildResult)
    (hok : buildCoefficientMatrix net bct₀ bcv₀ g = .ok R)
    (hconn : ∀ c ∈ net.conns, c.1 < net.numPores ∧ c.2 < net.numPores) :
    (∀ r, r < net.numPores → bct₀ r = 1 →
      Aentry R r r = 1 ∧ (∀ c, c ≠ r → Aentry R r c = 0) ∧
      buildRHS net R r = bcv₀ r) ∧
    (∀ a b, (a, b) ∈ net.conns → bct₀ a = 1 → bct₀ b = 1 → a ≠ b →
      Aentry R a b = 0 ∧ Aentry R b a = 0) := by
  have hR : R = buildCore net bct₀ bcv₀
      (fun t => (broadcastG net.conns.length g).getD t 0) := by
    simp only [buildCoefficientMatrix] at hok
    split at hok
    · exact (Except.ok.injEq _ _ ▸ hok).symm
    · exact absurd hok (by simp)
  subst hR
  have main : ∀ r, r < net.numPores → bct₀ r = 1 →
      Aentry (buildCore net bct₀ bcv₀
        fun t => (broadcastG net.conns.length g).getD t 0) r r = 1 ∧
      (∀ c, c ≠ r → Aentry (buildCore net bct₀ bcv₀
        fun t => (broadcastG net.conns.length g).getD t 0) r c = 0) ∧
      buildRHS net (buildCore net bct₀ bcv₀
        fun t => (broadcastG net.conns.length g).getD t 0) r = bcv₀ r := by
    intro r hrN hdir
    have hrow := buildCore_dirichlet_row net bct₀ bcv₀
      (fun t => (broadcastG net.conns.length g).getD t 0) r hrN hdir
    have hd1 : defaultInsulated net bct₀ r = 1 :=
      (defaultInsulated_one_iff net bct₀ r).mpr hdir
    have hd2 : (convertedBC net bct₀ bcv₀).1 r = 1 :=
      (convertedBC_one_iff net bct₀ bcv₀ r).mpr hd1
    refine ⟨by rw [hrow r, if_pos rfl], fun c hc => by rw [hrow c, if_neg hc], ?_⟩
    rw [buildRHS_dirichlet net _ r hrN hd2]
    exact (convertedBC_of_ne_two net bct₀ bcv₀ r (by rw [hd1]; decide)).2
  refine ⟨main, fun a b hab ha hb hne => ?_⟩
  rcases hconn (a, b) hab with ⟨haN, hbN⟩
  exact ⟨(main a haN ha).2.1 b fun h => hne h.symm,
    (main b hbN hb).2.1 a hne⟩

/-! ### Concrete example networks used to instantiate the theorems -/

/-- Two internal pores joined by one throat. -/
def netA : Network :=
  { numPores := 2
    conns := [(0, 1)]
    internal := fun _ => true
    crossSection := fun _ => 0
    coords := fun _ => (0, 0, 0)
    faceLabel := fun _ => [] }

/-- Pore 0 Dirichlet, pore 1 unconstrained. -/
def bctA : ℕ → ℕ := fun p => if p = 0 then 1 else 0

def bcvA : ℕ → ℚ := fun p => if p = 0 then 5 else 0

def dA : ℕ → ℚ := fun t => (broadcastG netA.conns.length [2]).getD t 0

def RA : BuildResult := buildCore netA bctA bcvA dA

/-- Witness for C1 at the two-pore network: the non-Dirichlet row 1 sums to
zero and its diagonal negates its off-diagonal sum. -/
theorem claim_C1_rowsum_zero_witness :
    (∑ c ∈ Finset.range RA.dim, Aentry RA 1 c) = 0 ∧
    Aentry RA 1 1 = -∑ c ∈ (Finset.range RA.dim).erase 1, Aentry RA 1 c :=
  claim_C1_rowsum_zero netA bctA bcvA [2] RA rfl (by decide) 1 (by decide)
    (by decide)

/-- Witness for C2 at the two-pore network: the Dirichlet row 0 is an identity
row and its RHS entry is the Dirichlet value 5. -/
theorem claim_C2_dirichlet_identity_witness :
    Aentry RA 0 0 = 1 ∧ Aentry RA 0 1 = 0 ∧ buildRHS netA RA 0 = 5 := by
  have h := claim_C2_dirichlet_identity netA bctA bcvA [2] RA rfl (by decide)
  exact ⟨(h.1 0 (by decide) (by decide)).1,
    (h.1 0 (by decide) (by decide)).2.1 1 (by decide),
    (h.1 0 (by decide) (by decide)).2.2⟩

/-! ### Generic lemmas for the superpore coupling entries -/

theorem npUnique_nodup (l : List ℚ) : (npUnique l).Nodup :=
  ((List.perm_insertionSort _ l.dedup).nodup_iff).mpr l.nodup_dedup

theorem mem_npUnique {l : List ℚ} {a : ℚ} : a ∈ npUnique l ↔ a ∈ l := by
  rw [npUnique, (List.perm_insertionSort _ l.dedup).mem_iff, List.mem_dedup]

theorem mem_enum_spec {α : Type} {l : List α} {iv : ℕ × α} (h : iv ∈ l.enum) :
    ∃ hlt : iv.1 < l.length, l.get ⟨iv.1, hlt⟩ = iv.2 := by
  have := List.mem_enum_iff_get?.mp h
  rcases List.get?_eq_some.mp this with ⟨hlt, hget⟩
  exact ⟨hlt, hget⟩

theorem entryVal_flatMap {α : Type} (l : List α) (f : α → List Entry) (r c : ℕ) :
    entryVal (l.flatMap f) r c = (l.map fun x => entryVal (f x) r c).sum := by
  induction l with
  | nil => simp [entryVal, V]
  | cons a l ih =>
    rw [List.flatMap_cons, entryVal_append, List.map_cons, List.sum_cons, ih]

theorem entryVal_map_rowlist (m : List ℕ) (s : ℕ) (x : ℚ) (r c : ℕ)
    (hnd : m.Nodup) :
    entryVal (m.map fun q => (q, s, x)) r c = if r ∈ m ∧ c = s then x else 0 := by
  induction m with
  | nil => simp [entryVal, V]
  | cons a m ih =>
    rcases List.nodup_cons.mp hnd with ⟨ha, hm⟩
    simp only [List.map_cons, entryVal_cons]
    rw [ih hm]
    by_cases hcs : c = s
    · subst hcs
      by_cases har : a = r
      · subst har
        rw [if_pos ⟨rfl, rfl⟩, if_neg fun h => ha h.1,
          if_pos ⟨List.mem_cons_self a m, rfl⟩, add_zero]
      · rw [if_neg fun h => har h.1, zero_add]
        by_cases hrm : r ∈ m
        · rw [if_pos ⟨hrm, rfl⟩, if_pos ⟨List.mem_cons_of_mem a hrm, rfl⟩]
        · rw [if_neg fun h => hrm h.1,
            if_neg fun h => (List.mem_cons.mp h.1).elim (fun he => har he.symm) hrm]
    · rw [if_neg fun h => hcs h.2.symm, if_neg fun h => hcs h.2,
        if_neg fun h => hcs h.2, add_zero]

theorem entryVal_map_collist (m : List ℕ) (s : ℕ) (x : ℚ) (r c : ℕ)
    (hnd : m.Nodup) :
    entryVal (m.map fun q => (s, q, x)) r c = if r = s ∧ c ∈ m then x else 0 := by
  induction m with
  | nil => simp [entryVal, V]
  | cons a m ih =>
    rcases List.nodup_cons.mp hnd with ⟨ha, hm⟩
    simp only [List.map_cons, entryVal_cons]
    rw [ih hm]
    by_cases hrs : r = s
    · by_cases hca : a = c
      · subst hca
        rw [if_pos ⟨hrs.symm, rfl⟩, if_neg fun h => ha h.2,
          if_pos ⟨hrs, List.mem_cons_self a m⟩, add_zero]
      · rw [if_neg fun h => hca h.2, zero_add]
        by_cases hcm : c ∈ m
        · rw [if_pos ⟨hrs, hcm⟩, if_pos ⟨hrs, List.mem_cons_of_mem a hcm⟩]
        · rw [if_neg fun h => hcm h.2,
            if_neg fun h => (List.mem_cons.mp h.2).elim (fun he => hca he.symm) hcm]
    · rw [if_neg fun h => hrs (h.1.symm), if_neg fun h => hrs h.1,
        if_neg fun h => hrs h.1, add_zero]

theorem sum_indicator_enumFrom {α : Type} (x : ℚ) (i : ℕ) :
    ∀ (n : ℕ) (l : List α),
      ((List.enumFrom n l).map fun iv => if iv.1 = i then x else 0).sum =
        if n ≤ i ∧ i < n + l.length then x else 0 := by
  intro n l
  induction l generalizing n with
  | nil =>
    simp only [List.enumFrom_nil, List.map_nil, List.sum_nil, List.length_nil,
      Nat.add_zero]
    rw [if_neg (by omega)]
  | cons a l ih =>
    simp only [List.enumFrom_cons, List.map_cons, List.sum_cons, List.length_cons]
    rw [ih (n + 1)]
    by_cases hni : n = i
    · subst hni
      rw [if_pos rfl, if_neg (by omega), if_pos (by omega), add_zero]
    · rw [if_neg hni, zero_add]
      exact if_congr (by omega) rfl rfl

theorem kind4Any_iff (N : ℕ) (bct : ℕ → ℕ) :
    kind4Any N bct = true ↔ ∃ p, p < N ∧ bct p = 4 := by
  simp [kind4Any, List.any_eq_true, List.mem_range]

theorem entryVal_superBlock_indicator (N dim : ℕ) (bct : ℕ → ℕ) (bcv : ℕ → ℚ)
    (extera : List ℚ) (hnd : extera.Nodup) (hdim : dim = N + extera.length)
    (p : ℕ) (hpN : p < N) (hp4 : bct p = 4)
    (hitem : extera.indexOf (bcv p) < extera.length)
    (hget : extera.get ⟨extera.indexOf (bcv p), hitem⟩ = bcv p) :
    ∀ iv ∈ extera.enum,
      (entryVal (superBlock N dim bct bcv iv) p
          (dim - extera.indexOf (bcv p) - 1) =
        if iv.1 = extera.indexOf (bcv p) then gSuper else 0) ∧
      (entryVal (superBlock N dim bct bcv iv)
          (dim - extera.indexOf (bcv p) - 1) p =
        if iv.1 = extera.indexOf (bcv p) then gSuper else 0) := by
  intro iv hiv
  obtain ⟨i, v⟩ := iv
  rcases mem_enum_spec hiv with ⟨hlt, hgetiv⟩
  have hnodupneu : ((List.range N).filter
      fun q => bct q = 4 ∧ bcv q = v).Nodup := (List.nodup_range N).filter _
  have hmemlt : ∀ q ∈ (List.range N).filter fun q => bct q = 4 ∧ bcv q = v,
      q < N := fun q hq => List.mem_range.mp (List.mem_of_mem_filter hq)
  have hsge : N ≤ dim - i - 1 := by omega
  have hc0ge : N ≤ dim - extera.indexOf (bcv p) - 1 := by omega
  refine ⟨?_, ?_⟩
  · simp only [superBlock]
    rw [entryVal_append, entryVal_map_rowlist _ _ _ _ _ hnodupneu,
      entryVal_map_collist _ _ _ _ _ hnodupneu]
    have hcol : (if p = dim - i - 1 ∧
        dim - List.indexOf (bcv p) extera - 1 ∈
          List.filter (fun q => decide (bct q = 4 ∧ bcv q = v)) (List.range N)
        then gSuper else 0) = 0 := if_neg fun h => by have := h.1; omega
    rw [hcol, add_zero]
    by_cases heq : i = extera.indexOf (bcv p)
    · have hv2 : bcv p = v := by
        subst heq
        exact hget.symm.trans hgetiv
      have hpmem : p ∈ (List.range N).filter fun q => bct q = 4 ∧ bcv q = v := by
        simp only [List.mem_filter, List.mem_range, decide_eq_true_eq]
        exact ⟨hpN, hp4, hv2⟩
      rw [if_pos ⟨hpmem, by omega⟩, if_pos heq]
    · rw [if_neg fun h => heq (by have := h.2; omega), if_neg heq]
  · simp only [superBlock]
    rw [entryVal_append, entryVal_map_rowlist _ _ _ _ _ hnodupneu,
      entryVal_map_collist _ _ _ _ _ hnodupneu]
    have hrow : (if dim - List.indexOf (bcv p) extera - 1 ∈
          List.filter (fun q => decide (bct q = 4 ∧ bcv q = v)) (List.range N) ∧
          p = dim - i - 1 then gSuper else 0) = 0 :=
      if_neg fun h => by have := hmemlt _ h.1; omega
    rw [hrow, zero_add]
    by_cases heq : i = extera.indexOf (bcv p)
    · have hv2 : bcv p = v := by
        subst heq
        exact hget.symm.trans hgetiv
      have hpmem : p ∈ (List.range N).filter fun q => bct q = 4 ∧ bcv q = v := by
        simp only [List.mem_filter, List.mem_range, decide_eq_true_eq]
        exact ⟨hpN, hp4, hv2⟩
      rw [if_pos ⟨by omega, hpmem⟩, if_pos heq]
    · rw [if_neg fun h => heq (by have := h.1; omega), if_neg heq]

theorem entryVal_superEntries_coupling (N dim : ℕ) (bct : ℕ → ℕ) (bcv : ℕ → ℚ)
    (extera : List ℚ) (hnd : extera.Nodup) (hdim : dim = N + extera.length)
    (p : ℕ) (hpN : p < N) (hp4 : bct p = 4) (hv : bcv p ∈ extera) :
    entryVal (superEntries N dim bct bcv extera) p
        (dim - extera.indexOf (bcv p) - 1) = gSuper ∧
    entryVal (superEntries N dim bct bcv extera)
        (dim - extera.indexOf (bcv p) - 1) p = gSuper := by
  have hitem : extera.indexOf (bcv p) < extera.length :=
    List.indexOf_lt_length.mpr hv
  have hget : extera.get ⟨extera.indexOf (bcv p), hitem⟩ = bcv p := by
    rw [List.get_eq_getElem]
    exact List.getElem_indexOf _
  have hind := entryVal_superBlock_indicator N dim bct bcv extera hnd hdim p hpN
    hp4 hitem hget
  constructor
  · rw [superEntries, entryVal_flatMap,
      List.map_congr_left fun iv hiv => (hind iv hiv).1]
    simp only [List.enum]
    rw [sum_indicator_enumFrom, if_pos (by omega)]
  · rw [superEntries, entryVal_flatMap,
      List.map_congr_left fun iv hiv => (hind iv hiv).2]
    simp only [List.enum]
    rw [sum_indicator_enumFrom, if_pos (by omega)]

/-- Claim C4: one auxiliary superpore row/column per distinct grouped-rate
value — the matrix is square of dimension `N + #distinct values`, every node
carrying a value is coupled to that value's superpore with the small
conductance `1e-60` symmetrically in both directions, and with no kind-4 node
the dimension stays `N`. -/
theorem claim_C4_superpores (net : Network) (bct₀ : ℕ → ℕ) (bcv₀ : ℕ → ℚ)
    (g : List ℚ) (R : BuildResult)
    (hok : buildCoefficientMatrix net bct₀ bcv₀ g = .ok R)
    (hconn : ∀ c ∈ net.conns, c.1 < net.numPores ∧ c.2 < net.numPores) :
    R.dim = net.numPores + R.extera.length ∧
    R.extera.Nodup ∧
    (∀ w, w ∈ R.extera ↔ ∃ q, q < net.numPores ∧ R.bct q = 4 ∧ R.bcv q = w) ∧
    (∀ p, p < net.numPores → R.bct p = 4 →
      Aentry R p (R.dim - R.extera.indexOf (R.bcv p) - 1) = gSuper ∧
      Aentry R (R.dim - R.extera.indexOf (R.bcv p) - 1) p = gSuper) ∧
    ((∀ p, p < net.numPores → R.bct p ≠ 4) → R.dim = net.numPores) := by
  have hR : R = buildCore net bct₀ bcv₀
      (fun t => (broadcastG net.conns.length g).getD t 0) := by
    simp only [buildCoefficientMatrix] at hok
    split at hok
    · exact (Except.ok.injEq _ _ ▸ hok).symm
    · exact absurd hok (by simp)
  subst hR
  set N := net.numPores with hN
  set dM := fun t => (broadcastG net.conns.length g).getD t 0 with hdM
  set st := convertedBC net bct₀ bcv₀ with hst
  set bct₁ := defaultInsulated net bct₀ with hb1
  have hextera : (buildCore net bct₀ bcv₀ dM).extera = exteraList N st.1 st.2 := rfl
  have hbct : (buildCore net bct₀ bcv₀ dM).bct = st.1 := rfl
  have hbcv : (buildCore net bct₀ bcv₀ dM).bcv = st.2 := rfl
  have hdim : (buildCore net bct₀ bcv₀ dM).dim =
      N + (exteraList N st.1 st.2).length := rfl
  have hmem : ∀ w, w ∈ exteraList N st.1 st.2 ↔
      ∃ q, q < N ∧ st.1 q = 4 ∧ st.2 q = w := by
    intro w
    rw [exteraList]
    split
    · rename_i h4
      rw [mem_npUnique, List.mem_map]
      constructor
      · rintro ⟨q, hq, rfl⟩
        rcases List.mem_filter.mp hq with ⟨hqr, hqp⟩
        simp only [decide_eq_true_eq] at hqp
        exact ⟨q, List.mem_range.mp hqr, hqp, rfl⟩
      · rintro ⟨q, hqN, hq4, rfl⟩
        exact ⟨q, List.mem_filter.mpr ⟨List.mem_range.mpr hqN, by simp [hq4]⟩, rfl⟩
    · rename_i h4
      simp only [List.not_mem_nil, false_iff]
      rintro ⟨q, hqN, hq4, -⟩
      exact h4 ((kind4Any_iff N st.1).mpr ⟨q, hqN, hq4⟩)
  refine ⟨rfl, ?_, ?_, ?_, ?_⟩
  · rw [hextera, exteraList]
    split
    · exact npUnique_nodup _
    · exact List.nodup_nil
  · intro w
    rw [hextera, hbct, hbcv]
    exact hmem w
  · intro p hpN hp4
    rw [hbct] at hp4
    have h4any : kind4Any N st.1 = true := (kind4Any_iff N st.1).mpr ⟨p, hpN, hp4⟩
    have hv : st.2 p ∈ exteraList N st.1 st.2 :=
      (hmem (st.2 p)).mpr ⟨p, hpN, hp4, rfl⟩
    have hitem : (exteraList N st.1 st.2).indexOf (st.2 p) <
        (exteraList N st.1 st.2).length := List.indexOf_lt_length.mpr hv
    have hsge : N ≤ (buildCore net bct₀ bcv₀ dM).dim -
        (exteraList N st.1 st.2).indexOf (st.2 p) - 1 := by
      rw [hdim]; omega
    have hcoup := entryVal_superEntries_coupling N
      (N + (exteraList N st.1 st.2).length) st.1 st.2 (exteraList N st.1 st.2)
      (by rw [exteraList]
          split <;> first | exact npUnique_nodup _ | exact List.nodup_nil) rfl
      p hpN hp4 hv
    have hents : (buildCore net bct₀ bcv₀ dM).entries =
        (offDiag1 net bct₁ dM ++ offDiag2 net bct₁ dM ++
          (if kind4Any N st.1 then superEntries N
            (N + (exteraList N st.1 st.2).length) st.1 st.2
            (exteraList N st.1 st.2) else []) ++
          dirDiagEntries N st.1) ++
        closureEntries N (N + (exteraList N st.1 st.2).length) st.1
          (preEntries net bct₀ bcv₀ dM) := rfl
    have hoff1 : ∀ r c, (N ≤ r ∨ N ≤ c) →
        entryVal (offDiag1 net bct₁ dM) r c = 0 := by
      intro r c hrc
      refine entryVal_eq_zero fun e he hmatch => ?_
      rcases mem_offDiag1.mp he with ⟨tc, htc, -, rfl⟩
      have := hconn tc.2 (mem_of_mem_enum htc)
      dsimp only at hmatch
      omega
    have hoff2 : ∀ r c, (N ≤ r ∨ N ≤ c) →
        entryVal (offDiag2 net bct₁ dM) r c = 0 := by
      intro r c hrc
      refine entryVal_eq_zero fun e he hmatch => ?_
      rcases mem_offDiag2.mp he with ⟨tc, htc, -, rfl⟩
      have := hconn tc.2 (mem_of_mem_enum htc)
      dsimp only at hmatch
      omega
    have hdir : ∀ r c, r ≠ c →
        entryVal (dirDiagEntries N st.1) r c = 0 := by
      intro r c hrc
      refine entryVal_eq_zero fun e he hmatch => ?_
      rcases mem_dirDiagEntries.mp he with ⟨q, -, -, rfl⟩
      dsimp only at hmatch
      exact hrc (hmatch.1 ▸ hmatch.2.symm ▸ rfl)
    have hclo : ∀ r c, r ≠ c →
        entryVal (closureEntries N (N + (exteraList N st.1 st.2).length) st.1
          (preEntries net bct₀ bcv₀ dM)) r c = 0 := by
      intro r c hrc
      refine entryVal_eq_zero fun e he hmatch => ?_
      rcases mem_closureEntries.mp he with ⟨q, -, -, rfl⟩
      dsimp only at hmatch
      exact hrc (hmatch.1 ▸ hmatch.2.symm ▸ rfl)
    have hpns : p ≠ (buildCore net bct₀ bcv₀ dM).dim -
        (exteraList N st.1 st.2).indexOf (st.2 p) - 1 := by omega
    constructor
    · rw [Aentry_eq_entryVal, hents, entryVal_append, entryVal_append,
        entryVal_append, entryVal_append, hbcv, hextera,
        hoff1 _ _ (Or.inr hsge), hoff2 _ _ (Or.inr hsge),
        hdir _ _ hpns, hclo _ _ hpns, if_pos h4any]
      rw [show (buildCore net bct₀ bcv₀ dM).dim =
        N + (exteraList N st.1 st.2).length from rfl]
      rw [hcoup.1]
      ring
    · rw [Aentry_eq_entryVal, hents, entryVal_append, entryVal_append,
        entryVal_append, entryVal_append, hbcv, hextera,
        hoff1 _ _ (Or.inl hsge), hoff2 _ _ (Or.inl hsge),
        hdir _ _ (Ne.symm hpns), hclo _ _ (Ne.symm hpns), if_pos h4any]
      rw [show (buildCore net bct₀ bcv₀ dM).dim =
        N + (exteraList N st.1 st.2).length from rfl]
      rw [hcoup.2]
      ring
  · intro hno
    have h4 : kind4Any N st.1 ≠ true := by
      intro h
      rcases (kind4Any_iff N st.1).mp h with ⟨p, hpN, hp4⟩
      exact hno p hpN (by rw [hbct]; exact hp4)
    rw [hdim, exteraList, if_neg h4, List.length_nil, Nat.add_zero]

/-- Pore 0 grouped-rate (kind 4) with value 7, pore 1 Dirichlet. -/
def bctB : ℕ → ℕ := fun p => if p = 0 then 4 else 1

def bcvB : ℕ → ℚ := fun p => if p = 0 then 7 else 0

def dB : ℕ → ℚ := fun t => (broadcastG netA.conns.length [3]).getD t 0

def RB : BuildResult := buildCore netA bctB bcvB dB

/-- Witness for C4: with one kind-4 pore of value 7 the dimension grows by
one and the pore is coupled to its superpore (row/column 2) by `gSuper` in
both directions. -/
theorem claim_C4_superpores_witness :
    RB.dim = netA.numPores + RB.extera.length ∧ RB.extera.Nodup ∧
    Aentry RB 0 2 = gSuper ∧ Aentry RB 2 0 = gSuper := by
  have h := claim_C4_superpores netA bctB bcvB [3] RB rfl (by decide)
  have he : RB.dim - RB.extera.indexOf (RB.bcv 0) - 1 = 2 := by decide
  have hc := h.2.2.2.1 0 (by decide) (by decide)
  rw [he] at hc
  exact ⟨h.1, h.2.1, hc.1, hc.2⟩

/-! ### The no-boundary-condition guard and the conductance shape handling -/

theorem build_error_shape {net : Network} {bct₀ : ℕ → ℕ} {bcv₀ : ℕ → ℚ}
    {g : List ℚ} {e : Err}
    (h : buildCoefficientMatrix net bct₀ bcv₀ g = .error e) : e = .indexError := by
  simp only [buildCoefficientMatrix] at h
  split at h
  · exact absurd h (by simp)
  · exact (Except.error.injEq _ _ ▸ h).symm

theorem maskIndexOk_of_le {len : ℕ} {mask : List Bool}
    (h : mask.length ≤ len) : maskIndexOk len mask = true := by
  rw [maskIndexOk, List.all_eq_true]
  intro i hi
  have : i < len := lt_of_lt_of_le (List.mem_range.mp hi) h
  simp [this]

theorem broadcastG_length (M : ℕ) (g : List ℚ)
    (h : g.length = 1 ∨ g.length = M) : (broadcastG M g).length = M := by
  rw [broadcastG]
  split
  · exact List.length_replicate _ _
  · rename_i hne
    rcases h with h | h
    · exact absurd h hne
    · exact h

/-- Claim C5: an all-zero boundary-condition kind array makes the solve fail
with the no-boundary-condition error (and conversely); a non-all-zero kind
array with a well-sized conductance proceeds through assembly and solve. -/
theorem claim_C5_all_zero_bc (spsolve : (ℕ → ℕ → ℚ) → (ℕ → ℚ) → (ℕ → ℚ))
    (net : Network) (bct₀ : ℕ → ℕ) (bcv₀ : ℕ → ℚ) (g : List ℚ) :
    (doOneInnerIteration spsolve net bct₀ bcv₀ g = .error .configurationError ↔
      ∀ p, p < net.numPores → bct₀ p = 0) ∧
    ((¬∀ p, p < net.numPores → bct₀ p = 0) →
      (g.length = 1 ∨ g.length = net.conns.length) →
      ∃ x, doOneInnerIteration spsolve net bct₀ bcv₀ g = .ok x) := by
  have hallchar : ((List.range net.numPores).all fun p => bct₀ p == 0) = true ↔
      ∀ p, p < net.numPores → bct₀ p = 0 := by
    rw [List.all_eq_true]
    constructor
    · intro h p hp
      have := h p (List.mem_range.mpr hp)
      simpa using this
    · intro h p hp
      simp [h p (List.mem_range.mp hp)]
  have hok : (g.length = 1 ∨ g.length = net.conns.length) →
      buildCoefficientMatrix net bct₀ bcv₀ g =
        .ok (buildCore net bct₀ bcv₀
          fun t => (broadcastG net.conns.length g).getD t 0) := by
    intro hlen
    have hmlen : (broadcastG net.conns.length g).length = net.conns.length :=
      broadcastG_length _ _ hlen
    simp only [buildCoefficientMatrix]
    rw [if_pos]
    rw [Bool.and_eq_true]
    constructor <;>
      exact maskIndexOk_of_le (by rw [List.length_map, hmlen])
  constructor
  · unfold doOneInnerIteration
    split
    · rename_i hall
      constructor
      · intro _
        exact hallchar.mp hall
      · intro _
        rfl
    · rename_i hall
      constructor
      · intro h
        exfalso
        rcases hb : buildCoefficientMatrix net bct₀ bcv₀ g with e | R
        · rw [hb] at h
          have := build_error_shape hb
          subst this
          exact absurd (Except.error.injEq _ _ ▸ h) (by decide)
        · rw [hb] at h
          exact absurd h (by simp)
      · intro h
        exact absurd (hallchar.mpr h) hall
  · intro hnz hlen
    unfold doOneInnerIteration
    rw [if_neg fun hc => hnz (hallchar.mp hc), hok hlen]
    exact ⟨_, rfl⟩

/-- Witness for C5 in both directions: the all-zero kind array yields the
configuration error, and the mixed kind array solves through. -/
theorem claim_C5_all_zero_bc_witness :
    doOneInnerIteration (fun _ _ => fun _ => 0) netA (fun _ => 0) bcvA [2] =
      .error .configurationError ∧
    ∃ x, doOneInnerIteration (fun _ _ => fun _ => 0) netA bctA bcvA [2] = .ok x :=
  ⟨(claim_C5_all_zero_bc (fun _ _ => fun _ => 0) netA (fun _ => 0) bcvA [2]).1.mpr
      fun _ _ => rfl,
   (claim_C5_all_zero_bc (fun _ _ => fun _ => 0) netA bctA bcvA [2]).2
      (fun h => by have := h 0 (by decide); simp [bctA] at this) (Or.inl rfl)⟩

theorem broadcastG_replicate (M : ℕ) (x : ℚ) :
    broadcastG M (List.replicate M x) = List.replicate M x := by
  rw [broadcastG]
  split
  · rename_i h
    rw [List.length_replicate] at h
    subst h
    rfl
  · rfl

/-- Claim C8 amended: a scalar (size-1) conductance is broadcast to all
throats; there is no dedicated eager shape check — a too-short conductance
array instead fails with a NumPy `IndexError` when the boolean-mask selection
`data_main[loc1]`/`data_main[loc2]` reads past its end, which happens inside
matrix assembly. -/
theorem claim_C8_conductance_amended (net : Network) (bct₀ : ℕ → ℕ)
    (bcv₀ : ℕ → ℚ) (g : List ℚ) :
    (g.length = 1 →
      buildCoefficientMatrix net bct₀ bcv₀ g =
        buildCoefficientMatrix net bct₀ bcv₀
          (List.replicate net.conns.length (g.headD 0))) ∧
    (∀ t, g.length ≠ 1 → t < net.conns.length → g.length ≤ t →
      (defaultInsulated net bct₀ (net.conns.getD t (0, 0)).1 ≠ 1 ∨
        defaultInsulated net bct₀ (net.conns.getD t (0, 0)).2 ≠ 1) →
      buildCoefficientMatrix net bct₀ bcv₀ g = .error .indexError) := by
  constructor
  · intro h1
    have hbg : broadcastG net.conns.length g =
        broadcastG net.conns.length (List.replicate net.conns.length (g.headD 0)) := by
      rw [broadcastG_replicate, broadcastG, if_pos h1]
    simp only [buildCoefficientMatrix]
    rw [hbg]
  · intro t hne ht hle hdisj
    have hbg : broadcastG net.conns.length g = g := by rw [broadcastG, if_neg hne]
    have hmask : ∀ (f : ℕ × ℕ → Bool), f (net.conns.getD t (0, 0)) = true →
        maskIndexOk g.length (net.conns.map f) = false := by
      intro f hf
      rw [maskIndexOk]
      apply List.all_eq_false.mpr
      refine ⟨t, List.mem_range.mpr (by rw [List.length_map]; exact ht), ?_⟩
      have hgt : (net.conns.map f).getD t false = f (net.conns.getD t (0, 0)) := by
        rw [List.getD, List.getD, List.get?_map, List.get?_eq_get ht]
        rfl
      rw [hgt, hf]
      simp
      omega
    simp only [buildCoefficientMatrix]
    rw [hbg]
    rcases hdisj with hd | hd
    · rw [hmask (fun c => decide (defaultInsulated net bct₀ c.1 ≠ 1))
        (decide_eq_true hd)]
      simp
    · rw [hmask (fun c => decide (defaultInsulated net bct₀ c.2 ≠ 1))
        (decide_eq_true hd)]
      simp

/-- Two internal-only pores joined by three parallel throats, pore 1 first. -/
def netC8 : Network :=
  { numPores := 2
    conns := [(1, 0), (1, 0), (1, 0)]
    internal := fun _ => true
    crossSection := fun _ => 0
    coords := fun _ => (0, 0, 0)
    faceLabel := fun _ => [] }

/-- Witness for C8 amended: the scalar `[2]` broadcasts, and the length-2
conductance on a 3-throat network fails with the indexing error. -/
theorem claim_C8_conductance_amended_witness :
    buildCoefficientMatrix netA bctA bcvA [2] =
      buildCoefficientMatrix netA bctA bcvA
        (List.replicate netA.conns.length (([2] : List ℚ).headD 0)) ∧
    buildCoefficientMatrix netC8 bctA bcvA [5, 6] = .error .indexError :=
  ⟨(claim_C8_conductance_amended netA bctA bcvA [2]).1 rfl,
   (claim_C8_conductance_amended netC8 bctA bcvA [5, 6]).2 2 (by decide)
      (by decide) (by decide) (Or.inl (by decide))⟩

/-- Counterexample for C8 as stated: a conductance of length 2 on the
one-throat network is neither a scalar nor of the connection count, yet no
`InputShapeError` is raised — under the era's boolean-mask indexing the
selection succeeds (every selected position is in range) and assembly
completes normally. -/
theorem claim_C8_counterexample :
    (([5, 6] : List ℚ).length ≠ 1 ∧
      ([5, 6] : List ℚ).length ≠ netA.conns.length) ∧
    buildCoefficientMatrix netA bctA bcvA [5, 6] ≠ .error .inputShapeError := by
  refine ⟨by decide, fun h => ?_⟩
  have heq : buildCoefficientMatrix netA bctA bcvA [5, 6] =
      .ok (buildCore netA bctA bcvA
        fun t => (broadcastG netA.conns.length [5, 6]).getD t 0) := rfl
  rw [heq] at h
  exact Except.noConfusion h

/-! ### The rate evaluator -/

/-- Modelled from the spec: `find_neighbor_throats(pores, flatten=True,
mode='not_intersection')` — the connections whose endpoints straddle the given
node set (exactly one endpoint inside). -/
def cutThroats (net : Network) (pores : List ℕ) : List ℕ :=
  (List.range net.conns.length).filter fun t =>
    pores.contains (net.conns.getD t (0, 0)).1 !=
      pores.contains (net.conns.getD t (0, 0)).2

/-- `rate` (lines 231-248), pore-set form: orient each cut connection with the
endpoint inside the set as source (`pores1`/`pores2` swap of lines 240-243)
and sum `g * (X1 - X2)` (lines 244-247). -/
def rate (net : Network) (g : ℕ → ℚ) (x : ℕ → ℚ) (pores : List ℕ) : ℚ :=
  ((cutThroats net pores).map fun t =>
    if pores.contains (net.conns.getD t (0, 0)).1 then
      g t * (x (net.conns.getD t (0, 0)).1 - x (net.conns.getD t (0, 0)).2)
    else
      g t * (x (net.conns.getD t (0, 0)).2 - x (net.conns.getD t (0, 0)).1)).sum

theorem sum_map_neg (l : List ℕ) (f : ℕ → ℚ) :
    (l.map fun t => -f t).sum = -(l.map f).sum := by
  induction l with
  | nil => simp
  | cons a l ih => simp [ih]; ring

theorem getD_mem_of_lt {l : List (ℕ × ℕ)} {t : ℕ} (h : t < l.length) :
    l.getD t (0, 0) ∈ l := by
  rw [List.getD, List.get?_eq_get h]
  exact List.get_mem l t h

theorem contains_eq_decide_mem (l : List ℕ) (a : ℕ) :
    l.contains a = decide (a ∈ l) := by
  by_cases h : a ∈ l <;> simp [h]

/-- Claim C6: the rate evaluator orients every cut connection with the
endpoint inside the given node set as source, so evaluating the same cut from
the complementary node set negates the result: `rate(A) = -rate(B)`. -/
theorem claim_C6_rate_antisymmetry (net : Network) (g x : ℕ → ℚ)
    (pores : List ℕ)
    (hconn : ∀ c ∈ net.conns, c.1 < net.numPores ∧ c.2 < net.numPores) :
    rate net g x pores =
      -rate net g x
        ((List.range net.numPores).filter fun p => !pores.contains p) := by
  set B := (List.range net.numPores).filter fun p => !pores.contains p with hB
  have hBc : ∀ q, q < net.numPores → B.contains q = !pores.contains q := by
    intro q hq
    rw [contains_eq_decide_mem]
    by_cases hmem : q ∈ pores
    · have hnB : q ∉ B := by
        rw [hB]
        simp [List.mem_filter, hmem]
      simp [hnB, hmem]
    · have hinB : q ∈ B := by
        rw [hB]
        simp [List.mem_filter, List.mem_range, hq, hmem]
      simp [hinB, hmem]
  have hcut : cutThroats net pores = cutThroats net B := by
    rw [cutThroats, cutThroats]
    refine List.filter_congr fun t ht => ?_
    have htl : t < net.conns.length := List.mem_range.mp ht
    have hc := hconn (net.conns.getD t (0, 0)) (getD_mem_of_lt htl)
    rw [hBc _ hc.1, hBc _ hc.2]
    cases pores.contains (net.conns.getD t (0, 0)).1 <;>
      cases pores.contains (net.conns.getD t (0, 0)).2 <;> rfl
  have hterm : ∀ t ∈ cutThroats net pores,
      (fun t =>
        if B.contains (net.conns.getD t (0, 0)).1 then
          g t * (x (net.conns.getD t (0, 0)).1 - x (net.conns.getD t (0, 0)).2)
        else
          g t * (x (net.conns.getD t (0, 0)).2 - x (net.conns.getD t (0, 0)).1)) t =
      -((fun t =>
        if pores.contains (net.conns.getD t (0, 0)).1 then
          g t * (x (net.conns.getD t (0, 0)).1 - x (net.conns.getD t (0, 0)).2)
        else
          g t * (x (net.conns.getD t (0, 0)).2 - x (net.conns.getD t (0, 0)).1)) t) := by
    intro t ht
    have htl : t < net.conns.length :=
      List.mem_range.mp (List.mem_of_mem_filter ht)
    have hc := hconn (net.conns.getD t (0, 0)) (getD_mem_of_lt htl)
    dsimp only
    rw [hBc _ hc.1]
    cases hp1 : pores.contains (net.conns.getD t (0, 0)).1 <;> · simp; ring
  rw [rate, rate, ← hcut, List.map_congr_left hterm, sum_map_neg, neg_neg]

def x6 : ℕ → ℚ := fun p => if p = 0 then 3 else 1

/-- Witness for C6 on the two-pore network: the rate from `[0]` is the
negation of the rate from the complement. -/
theorem claim_C6_rate_antisymmetry_witness :
    rate netA (fun _ => 2) x6 [0] =
      -rate netA (fun _ => 2) x6
        ((List.range netA.numPores).filter fun p => !([0] : List ℕ).contains p) :=
  claim_C6_rate_antisymmetry netA (fun _ => 2) x6 [0] (by decide)

/-! ### The minpore throat-diameter model -/

/-- `minpore` (`throat_diameter.py` lines 107-120): `pDs` gathers the two
connecting pore diameters of each geometry throat (`nTs`, supplied by the
external `geometry.throats()`/`map_throats`), `value` takes the row minima,
and the masked update replaces exact zeros by the row maxima. -/
def minpore (poreDiameter : ℕ → ℚ) (conns : ℕ → ℕ × ℕ) (nTs : List ℕ) : List ℚ :=
  let pDs := nTs.map fun t => (poreDiameter (conns t).1, poreDiameter (conns t).2)
  let value := pDs.map fun d => min d.1 d.2
  let maxes := pDs.map fun d => max d.1 d.2
  value.zipWith (fun v m => if v = 0 then m else v) maxes

/-- Claim C10: for every throat of the geometry, the minpore model returns the
minimum of the two connecting pore diameters, except that an exactly-zero
minimum is replaced by the maximum of the two. -/
theorem claim_C10_minpore (poreDiameter : ℕ → ℚ) (conns : ℕ → ℕ × ℕ)
    (nTs : List ℕ) :
    minpore poreDiameter conns nTs = nTs.map fun t =>
      if min (poreDiameter (conns t).1) (poreDiameter (conns t).2) = 0 then
        max (poreDiameter (conns t).1) (poreDiameter (conns t).2)
      else min (poreDiameter (conns t).1) (poreDiameter (conns t).2) := by
  unfold minpore
  simp only [List.map_map, List.zipWith_map, List.zipWith_same]
  rfl

/-! ### The Neumann-flux group conversion -/

/-- The value the code assigns to the flux group of value `v` (lines
164-170): neighbours of the group filtered to the `'internal'` pores only,
then `∑ flux * cross_section` over the connecting throats. -/
def codeGroupValue (net : Network) (bct₁ : ℕ → ℕ) (bcv₀ : ℕ → ℚ) (v : ℚ) : ℚ :=
  ((findConnectingThroats net ((fluxPoresOf net bct₁).filter fun q => bcv₀ q = v)
      ((findNeighborPores net
          ((fluxPoresOf net bct₁).filter fun q => bcv₀ q = v)).filter
        fun q => net.internal q)).map fun t => v * net.crossSection t).sum

/-- The value the claim words would assign to the flux group of value `v`:
the neighbours are filtered to the non-Dirichlet internal pores before the
connecting throats are collected. -/
def specC3GroupValue (net : Network) (bct₁ : ℕ → ℕ) (bcv₀ : ℕ → ℚ) (v : ℚ) : ℚ :=
  ((findConnectingThroats net ((fluxPoresOf net bct₁).filter fun q => bcv₀ q = v)
      ((findNeighborPores net
          ((fluxPoresOf net bct₁).filter fun q => bcv₀ q = v)).filter
        fun q => net.internal q && !(bct₁ q == 1))).map
    fun t => v * net.crossSection t).sum

/-- Invariant device for the conversion loop: the kind array after the groups
of the values in `L₁` have been processed. -/
def procTypes (net : Network) (bct₁ : ℕ → ℕ) (bcv₀ : ℕ → ℚ) (L₁ : List ℚ) :
    ℕ → ℕ :=
  fun r => if r ∈ fluxPoresOf net bct₁ ∧ bcv₀ r ∈ L₁ then 4 else bct₁ r

/-- Invariant device for the conversion loop: the value array after the
groups of the values in `L₁` have been processed. -/
def procValues (net : Network) (bct₁ : ℕ → ℕ) (bcv₀ : ℕ → ℚ) (L₁ : List ℚ) :
    ℕ → ℚ :=
  fun r => if r ∈ fluxPoresOf net bct₁ ∧ bcv₀ r ∈ L₁ then
    codeGroupValue net bct₁ bcv₀ (bcv₀ r) else bcv₀ r

theorem fluxFold_processed (net : Network) (bct₁ : ℕ → ℕ) (bcv₀ : ℕ → ℚ) :
    ∀ (L₂ L₁ : List ℚ), (L₁ ++ L₂).Nodup →
      (∀ w ∈ L₁ ++ L₂, codeGroupValue net bct₁ bcv₀ w ∉ L₁ ++ L₂) →
      L₂.foldl (fluxGroupStep net (fluxPoresOf net bct₁))
          (procTypes net bct₁ bcv₀ L₁, procValues net bct₁ bcv₀ L₁) =
        (procTypes net bct₁ bcv₀ (L₁ ++ L₂),
         procValues net bct₁ bcv₀ (L₁ ++ L₂)) := by
  intro L₂
  induction L₂ with
  | nil =>
    intro L₁ _ _
    rw [List.foldl_nil, List.append_nil]
  | cons v L₂ ih =>
    intro L₁ hnd hni
    rw [List.foldl_cons]
    have hdisj : List.Disjoint L₁ (v :: L₂) := List.disjoint_of_nodup_append hnd
    have hstep : fluxGroupStep net (fluxPoresOf net bct₁)
        (procTypes net bct₁ bcv₀ L₁, procValues net bct₁ bcv₀ L₁) v =
        (procTypes net bct₁ bcv₀ (L₁ ++ [v]),
         procValues net bct₁ bcv₀ (L₁ ++ [v])) := by
      have hf : (fluxPoresOf net bct₁).filter
          (fun p => (procTypes net bct₁ bcv₀ L₁,
            procValues net bct₁ bcv₀ L₁).2 p = v) =
          (fluxPoresOf net bct₁).filter fun p => bcv₀ p = v := by
        refine List.filter_congr fun p hp => ?_
        by_cases hL : bcv₀ p ∈ L₁
        · have hpv : (procTypes net bct₁ bcv₀ L₁,
              procValues net bct₁ bcv₀ L₁).2 p =
              codeGroupValue net bct₁ bcv₀ (bcv₀ p) := if_pos ⟨hp, hL⟩
          rw [hpv]
          have hcv : codeGroupValue net bct₁ bcv₀ (bcv₀ p) ≠ v := by
            intro he
            refine hni (bcv₀ p) (List.mem_append_left _ hL) ?_
            rw [he]
            exact List.mem_append_right _ (List.mem_cons_self v L₂)
          have hbv : bcv₀ p ≠ v := fun he =>
            hdisj hL (he ▸ List.mem_cons_self v L₂)
          exact decide_eq_decide.mpr (iff_of_false hcv hbv)
        · have hpv : (procTypes net bct₁ bcv₀ L₁,
              procValues net bct₁ bcv₀ L₁).2 p = bcv₀ p :=
            if_neg fun hc => hL hc.2
          rw [hpv]
      simp only [fluxGroupStep]
      rw [hf]
      have hcontains : ∀ r,
          ((fluxPoresOf net bct₁).filter fun q => bcv₀ q = v).contains r =
            decide (r ∈ fluxPoresOf net bct₁ ∧ bcv₀ r = v) := by
        intro r
        rw [contains_eq_decide_mem]
        refine decide_eq_decide.mpr ?_
        rw [List.mem_filter]
        simp
      refine Prod.ext ?_ ?_ <;> · funext r
                                  dsimp only
                                  rw [hcontains r]
                                  by_cases hrf : r ∈ fluxPoresOf net bct₁ ∧ bcv₀ r = v
                                  · rw [if_pos (decide_eq_true hrf)]
                                    first
                                      | rw [procTypes,
                                          if_pos ⟨hrf.1, List.mem_append_right _
                                            (hrf.2 ▸ List.mem_singleton_self v)⟩]
                                      | rw [procValues,
                                          if_pos ⟨hrf.1, List.mem_append_right _
                                            (hrf.2 ▸ List.mem_singleton_self v)⟩,
                                          hrf.2, codeGroupValue]
                                  · rw [if_neg (by simpa using hrf)]
                                    first
                                      | rw [procTypes, procTypes]
                                      | rw [procValues, procValues]
                                    by_cases hfl : r ∈ fluxPoresOf net bct₁
                                    · have hnv : bcv₀ r ≠ v := fun he => hrf ⟨hfl, he⟩
                                      by_cases hL : bcv₀ r ∈ L₁
                                      · rw [if_pos ⟨hfl, hL⟩,
                                          if_pos ⟨hfl, List.mem_append_left _ hL⟩]
                                      · rw [if_neg fun hc => hL hc.2, if_neg]
                                        rintro ⟨-, hm⟩
                                        rcases List.mem_append.mp hm with hm | hm
                                        · exact hL hm
                                        · exact hnv (List.mem_singleton.mp hm)
                                    · rw [if_neg fun hc => hfl hc.1,
                                        if_neg fun hc => hfl hc.1]
    rw [hstep]
    have hnd2 : ((L₁ ++ [v]) ++ L₂).Nodup := by
      rw [← List.append_cons]
      exact hnd
    have hni2 : ∀ w ∈ (L₁ ++ [v]) ++ L₂,
        codeGroupValue net bct₁ bcv₀ w ∉ (L₁ ++ [v]) ++ L₂ := by
      rw [← List.append_cons]
      exact hni
    rw [ih (L₁ ++ [v]) hnd2 hni2, ← List.append_cons]

/-- Claim C3 amended: flux (kind 2) nodes are grouped by identical flux
value and every node of a group is reclassified to grouped-rate (kind 4) with
value `∑ flux * cross_section` over the throats connecting the group to its
*internal* neighbours — the code does not additionally exclude Dirichlet
neighbours.  The hypothesis `hni` rules out the collision where a freshly
assigned group value equals another pending flux value (which would make a
later loop iteration recapture already-converted pores). -/
theorem claim_C3_flux_conversion_amended (net : Network) (bct₀ : ℕ → ℕ)
    (bcv₀ : ℕ → ℚ) (g : List ℚ) (R : BuildResult)
    (hok : buildCoefficientMatrix net bct₀ bcv₀ g = .ok R)
    (hni : ∀ w ∈ npUnique ((fluxPoresOf net (defaultInsulated net bct₀)).map bcv₀),
      codeGroupValue net (defaultInsulated net bct₀) bcv₀ w ∉
        npUnique ((fluxPoresOf net (defaultInsulated net bct₀)).map bcv₀))
    (p : ℕ) (hpN : p < net.numPores)
    (hp2 : defaultInsulated net bct₀ p = 2) :
    R.bct p = 4 ∧
    R.bcv p = codeGroupValue net (defaultInsulated net bct₀) bcv₀ (bcv₀ p) := by
  have hR : R = buildCore net bct₀ bcv₀
      (fun t => (broadcastG net.conns.length g).getD t 0) := by
    simp only [buildCoefficientMatrix] at hok
    split at hok
    · exact (Except.ok.injEq _ _ ▸ hok).symm
    · exact absurd hok (by simp)
  subst hR
  set bct₁ := defaultInsulated net bct₀ with hb1
  have hbct : (buildCore net bct₀ bcv₀
      (fun t => (broadcastG net.conns.length g).getD t 0)).bct =
      (convertedBC net bct₀ bcv₀).1 := rfl
  have hbcv : (buildCore net bct₀ bcv₀
      (fun t => (broadcastG net.conns.length g).getD t 0)).bcv =
      (convertedBC net bct₀ bcv₀).2 := rfl
  rw [hbct, hbcv]
  have hany : ((List.range net.numPores).any fun q => bct₁ q == 2) = true :=
    List.any_eq_true.mpr ⟨p, List.mem_range.mpr hpN, by simp [hp2]⟩
  have hinit : ((bct₁ : ℕ → ℕ), (bcv₀ : ℕ → ℚ)) =
      (procTypes net bct₁ bcv₀ [], procValues net bct₁ bcv₀ []) := by
    refine Prod.ext ?_ ?_ <;> funext r <;> simp [procTypes, procValues]
  have hpflux : p ∈ fluxPoresOf net bct₁ :=
    List.mem_filter.mpr ⟨List.mem_range.mpr hpN, by simp [hp2]⟩
  have hpval : bcv₀ p ∈ npUnique ((fluxPoresOf net bct₁).map bcv₀) :=
    mem_npUnique.mpr (List.mem_map.mpr ⟨p, hpflux, rfl⟩)
  have hconv : convertedBC net bct₀ bcv₀ =
      (procTypes net bct₁ bcv₀
        ([] ++ npUnique ((fluxPoresOf net bct₁).map bcv₀)),
       procValues net bct₁ bcv₀
        ([] ++ npUnique ((fluxPoresOf net bct₁).map bcv₀))) := by
    unfold convertedBC fluxConvert
    rw [← hb1, if_pos hany, hinit]
    exact fluxFold_processed net bct₁ bcv₀ _ []
      (by simpa using npUnique_nodup _) (by simpa using hni)
  rw [hconv]
  constructor
  · exact if_pos ⟨hpflux, by simpa using hpval⟩
  · exact if_pos ⟨hpflux, by simpa using hpval⟩

/-- Flux pore 0 on the boundary, Dirichlet internal pore 1, free internal
pore 2, throats `0-1` (cross-section 10) and `0-2` (cross-section 100). -/
def net3 : Network :=
  { numPores := 3
    conns := [(0, 1), (0, 2)]
    internal := fun p => p != 0
    crossSection := fun t => if t = 0 then 10 else 100
    coords := fun _ => (0, 0, 0)
    faceLabel := fun _ => [] }

def bct3 : ℕ → ℕ := fun p => if p = 0 then 2 else if p = 1 then 1 else 0

def bcv3 : ℕ → ℚ := fun p => if p = 0 then 1 else 0

def RC3 : BuildResult :=
  buildCore net3 bct3 bcv3 (fun t => (broadcastG net3.conns.length [1]).getD t 0)

theorem codeGroupValue_net3 :
    codeGroupValue net3 (defaultInsulated net3 bct3) bcv3 1 = 110 := by
  rw [codeGroupValue,
    show (fluxPoresOf net3 (defaultInsulated net3 bct3)).filter
      (fun q => bcv3 q = 1) = [0] from by decide]
  rw [show ((findNeighborPores net3 [0]).filter fun q => net3.internal q) =
    [1, 2] from by decide]
  rw [show findConnectingThroats net3 [0] [1, 2] = [0, 1] from by decide]
  show (1 : ℚ) * net3.crossSection 0 + ((1 : ℚ) * net3.crossSection 1 + 0) = 110
  norm_num [net3]

theorem specC3GroupValue_net3 :
    specC3GroupValue net3 (defaultInsulated net3 bct3) bcv3 1 = 100 := by
  rw [specC3GroupValue,
    show (fluxPoresOf net3 (defaultInsulated net3 bct3)).filter
      (fun q => bcv3 q = 1) = [0] from by decide]
  rw [show ((findNeighborPores net3 [0]).filter
    fun q => net3.internal q && !(defaultInsulated net3 bct3 q == 1)) =
    [2] from by decide]
  rw [show findConnectingThroats net3 [0] [2] = [1] from by decide]
  show (1 : ℚ) * net3.crossSection 1 + 0 = 100
  norm_num [net3]

/-- Witness for C3 amended: on `net3` the flux pore 0 becomes kind 4 with the
code's group value (110, both connecting throats counted). -/
theorem claim_C3_flux_conversion_amended_witness :
    RC3.bct 0 = 4 ∧
    RC3.bcv 0 = codeGroupValue net3 (defaultInsulated net3 bct3) bcv3 (bcv3 0) := by
  refine claim_C3_flux_conversion_amended net3 bct3 bcv3 [1] RC3 rfl ?_ 0
    (by decide) (by decide)
  intro w hw
  rw [show npUnique ((fluxPoresOf net3 (defaultInsulated net3 bct3)).map bcv3) =
    [1] from by decide] at hw ⊢
  have hw1 : w = 1 := List.mem_singleton.mp hw
  subst hw1
  rw [codeGroupValue_net3]
  decide

/-- Counterexample for C3 as stated: on `net3` the converted value of flux
pore 0 is `110 = 1*10 + 1*100` — the throat to the *Dirichlet* internal
neighbour 1 is included — whereas the claim's "non-Dirichlet internal
neighbors" formula gives `100`. -/
theorem claim_C3_counterexample :
    buildCoefficientMatrix net3 bct3 bcv3 [1] = .ok RC3 ∧
    RC3.bcv 0 = 110 ∧
    specC3GroupValue net3 (defaultInsulated net3 bct3) bcv3 (bcv3 0) = 100 ∧
    RC3.bcv 0 ≠ specC3GroupValue net3 (defaultInsulated net3 bct3) bcv3 (bcv3 0) := by
  have hrc : RC3.bcv 0 = codeGroupValue net3 (defaultInsulated net3 bct3) bcv3 1 :=
    rfl
  have h110 : RC3.bcv 0 = 110 := by rw [hrc, codeGroupValue_net3]
  have h100 : specC3GroupValue net3 (defaultInsulated net3 bct3) bcv3 (bcv3 0) =
      100 := by
    rw [show bcv3 0 = 1 from rfl, specC3GroupValue_net3]
  refine ⟨rfl, h110, h100, ?_⟩
  rw [h110, h100]
  norm_num

/-! ### The effective-property estimator (`_calc_eff_prop_cubic`) -/

/-- The boundary-condition state of a `LinearSolver` instance as touched by
`_calc_eff_prop_cubic`: the `'Dirichlet'` pore label (in `self._pore_info`),
the `'BCval'` pore data (in `self._pore_data`), the `_BCtypes` / `_BCvalues`
attributes, and the temporaries `_dir`, `_BCval_temp`, `_BCtypes_temp`,
`_BCvalues_temp` used by the save/restore code.  `none` models an absent
dictionary key or attribute. -/
structure BCState where
  dirLabel : Option (List ℕ)
  bcval : Option (ℕ → ℚ)
  bctypes : Option (ℕ → ℕ)
  bcvalues : Option (ℕ → ℚ)
  dirTemp : Option (List ℕ)
  bcvalTemp : Option (ℕ → ℚ)
  bctypesTemp : Option (ℕ → ℕ)
  bcvaluesTemp : Option (ℕ → ℚ)

/-- Lines 287-298: save the prior Dirichlet label and `BCval` data (when
present) into the temporaries and delete them; nested inside the `BCval`
branch, a `try` block saves and deletes `_BCtypes` and `_BCvalues`, its
`except: pass` swallowing an `AttributeError` and leaving partial effects. -/
def savePhase (s : BCState) : BCState :=
  let s1 := match s.dirLabel with
    | some d => { s with dirTemp := some d, dirLabel := none }
    | none => s
  match s1.bcval with
  | some b =>
    let s2 := { s1 with bcvalTemp := some b, bcval := none }
    match s2.bctypes with
    | some bt =>
      let s3 := { s2 with bctypesTemp := some bt, bctypes := none }
      match s3.bcvalues with
      | some bv => { s3 with bcvaluesTemp := some bv, bcvalues := none }
      | none => s3
    | none => s2
  | none => s1

/-- Lines 310 and 315: `set_pore_data(prop='BCval', data=v, locations=locs)`
sets the value at the given locations, creating the array when the property
is absent (unset entries modelled as 0). -/
def setVals (f : Option (ℕ → ℚ)) (locs : List ℕ) (v : ℚ) : ℕ → ℚ :=
  fun p => if locs.contains p then v else (f.getD fun _ => 0) p

/-- Modelled from the spec: the inner solve (`self.run`, external) "invokes
the full solve", whose boundary-condition setup (`_boundary_conditions_setup`,
lines 104-128, restricted to the only label this method sets — `'Dirichlet'`
with data `'BCval'`) stores the kind/value arrays on the instance. -/
def runSetup (s : BCState) : BCState :=
  { s with
    bctypes := some fun p => if (s.dirLabel.getD []).contains p then 1 else 0
    bcvalues := some fun p =>
      if (s.dirLabel.getD []).contains p then (s.bcval.getD fun _ => 0) p else 0 }

/-- Lines 373-375: the tensor diagonal slot chosen from the face1 name:
top/bottom row 2, right/left row 1, front/back row 0, otherwise none. -/
def nameAxis (f1 : String) : Option ℕ :=
  if f1 = "top" ∨ f1 = "bottom" then some 2
  else if f1 = "right" ∨ f1 = "left" then some 1
  else if f1 = "front" ∨ f1 = "back" then some 0
  else none

/-- Write the coefficient into the diagonal slot named by face1 (no write
for an unrecognized name). -/
def tensorUpdate (t : ℕ → ℕ → ℚ) (f1 : String) (eff : ℚ) : ℕ → ℕ → ℚ :=
  match nameAxis f1 with
  | some k => fun i j => if i = k ∧ j = k then eff else t i j
  | none => t

/-- Result of `_calc_eff_prop_cubic`: the per-pair scalar mapping, the 3×3
tensor, or Python's implicit `None` (with more than 3 pairs neither `return`
statement fires). -/
inductive EffResult where
  | map : List (String × ℚ) → EffResult
  | tensor : (ℕ → ℕ → ℚ) → EffResult
  | noneResult : EffResult

/-- Lines 300-375, the per-face-pair loop: Dirichlet-label face1 (overwrite)
with `BCval` 0.8, add face2 with 0.4, run the inner solve — a failure
propagates immediately with the instance state as mutated so far — then
record the coefficient `effVal i` under the key `face1/face2`, delete the
four temporary BC holders (lines 368-371) and place the coefficient in the
tensor by face name.  The numeric coefficient itself comes from the external
solve and is supplied by the `effVal` oracle. -/
def effLoop (net : Network) (solveOk : ℕ → Bool) (effVal : ℕ → ℚ) :
    List (String × String) → ℕ → BCState → List (String × ℚ) → (ℕ → ℕ → ℚ) →
      BCState × Except Unit (List (String × ℚ) × (ℕ → ℕ → ℚ))
  | [], _, s, res, t => (s, .ok (res, t))
  | (f1, f2) :: rest, i, s, res, t =>
    let BC1 := net.faceLabel f1
    let BC2 := net.faceLabel f2
    let s1 := { s with dirLabel := some BC1 }
    let s2 := { s1 with bcval := some (setVals s1.bcval BC1 (4 / 5)) }
    let s3 := { s2 with dirLabel := some (BC1 ++ BC2) }
    let s4 := { s3 with bcval := some (setVals s3.bcval BC2 (2 / 5)) }
    let s5 := runSetup s4
    if solveOk i then
      let s6 := { s5 with dirLabel := none, bcval := none,
                          bctypes := none, bcvalues := none }
      effLoop net solveOk effVal rest (i + 1) s6
        (res ++ [(f1 ++ "/" ++ f2, effVal i)]) (tensorUpdate t f1 (effVal i))
    else (s5, .error ())

/-- Lines 376-385: the restore block; each statement raises `AttributeError`
when its temporary is absent and the surrounding `except: pass` stops the
chain right there, leaving the rest unrestored. -/
def restorePhase (s : BCState) : BCState :=
  match s.dirTemp with
  | none => s
  | some d =>
    let s1 := { s with dirLabel := some d, dirTemp := none }
    match s1.bcvalTemp with
    | none => s1
    | some b =>
      let s2 := { s1 with bcval := some b, bcvalTemp := none }
      match s2.bctypesTemp with
      | none => s2
      | some bt =>
        let s3 := { s2 with bctypes := some bt, bctypesTemp := none }
        match s3.bcvaluesTemp with
        | none => s3
        | some bv => { s3 with bcvalues := some bv, bcvaluesTemp := none }

/-- Lines 262-286: the face-pair normalization — the default
front/right/top against back/left/bottom when both arguments are empty, else
the pairwise zip of the two given lists. -/
def calcPairs (face1 face2 : List String) : List (String × String) :=
  if face1.isEmpty && face2.isEmpty then
    [("front", "back"), ("right", "left"), ("top", "bottom")]
  else face1.zip face2

/-- `_calc_eff_prop_cubic` (lines 250-387): normalize the face lists, save
the prior BC state, loop over the pairs, restore, and return the scalar
mapping (fewer than 3 pairs), the tensor (exactly 3 pairs) or `None`.  A
solve failure propagates immediately and the restore block never runs on
that path. -/
def calcEffPropCubic (net : Network) (solveOk : ℕ → Bool) (effVal : ℕ → ℚ)
    (face1 face2 : List String) (s0 : BCState) :
    BCState × Except Unit EffResult :=
  match effLoop net solveOk effVal (calcPairs face1 face2) 0 (savePhase s0) []
      (fun _ _ => 0) with
  | (s, .error e) => (s, .error e)
  | (s, .ok (res, t)) =>
    (restorePhase s,
     .ok (if (calcPairs face1 face2).length < 3 then .map res
          else if (calcPairs face1 face2).length = 3 then .tensor t
          else .noneResult))

theorem effLoop_temps (net : Network) (solveOk : ℕ → Bool) (effVal : ℕ → ℚ) :
    ∀ (pairs : List (String × String)) (i : ℕ) (s : BCState)
      (res : List (String × ℚ)) (t : ℕ → ℕ → ℚ),
      (effLoop net solveOk effVal pairs i s res t).1.dirTemp = s.dirTemp ∧
      (effLoop net solveOk effVal pairs i s res t).1.bcvalTemp = s.bcvalTemp ∧
      (effLoop net solveOk effVal pairs i s res t).1.bctypesTemp = s.bctypesTemp ∧
      (effLoop net solveOk effVal pairs i s res t).1.bcvaluesTemp = s.bcvaluesTemp := by
  intro pairs
  induction pairs with
  | nil => intro i s res t; exact ⟨rfl, rfl, rfl, rfl⟩
  | cons p rest ih =>
    intro i s res t
    obtain ⟨f1, f2⟩ := p
    show ((if solveOk i then _ else _ : BCState × _).1.dirTemp = s.dirTemp) ∧ _
    by_cases hs : solveOk i
    · simp only [effLoop, hs, if_true]
      exact ih (i + 1) _ _ _
    · simp only [effLoop, hs, if_false]
      exact ⟨rfl, rfl, rfl, rfl⟩

theorem effLoop_result (net : Network) (solveOk : ℕ → Bool) (effVal : ℕ → ℚ)
    (hso : ∀ i, solveOk i = true) :
    ∀ (pairs : List (String × String)) (i : ℕ) (s : BCState)
      (res : List (String × ℚ)) (t : ℕ → ℕ → ℚ),
      (effLoop net solveOk effVal pairs i s res t).2 =
        .ok (res ++ (List.enumFrom i pairs).map
            (fun ip => (ip.2.1 ++ "/" ++ ip.2.2, effVal ip.1)),
          (List.enumFrom i pairs).foldl
            (fun tt ip => tensorUpdate tt ip.2.1 (effVal ip.1)) t) := by
  intro pairs
  induction pairs with
  | nil => intro i s res t; simp [effLoop]
  | cons p rest ih =>
    intro i s res t
    obtain ⟨f1, f2⟩ := p
    simp only [effLoop, hso i, if_true]
    rw [ih (i + 1) _ _ _]
    simp only [List.enumFrom_cons, List.map_cons, List.foldl_cons]
    rw [← List.append_cons]

/-- Claim C7 amended: the estimator restores the prior BC state only on the
success path — when every inner solve succeeds and all four BC components
(Dirichlet label, BCval data, kind and value arrays) were present
beforehand, the instance's BC state is unchanged on return; when the inner
solve raises, the exception propagates before the restore block and the
mutated state is left behind. -/
theorem claim_C7_scoped_override_amended (net : Network) (solveOk : ℕ → Bool)
    (effVal : ℕ → ℚ) (face1 face2 : List String) (s0 : BCState)
    (hso : ∀ i, solveOk i = true)
    (d : List ℕ) (b : ℕ → ℚ) (bt : ℕ → ℕ) (bv : ℕ → ℚ)
    (hd : s0.dirLabel = some d) (hb : s0.bcval = some b)
    (ht : s0.bctypes = some bt) (hv : s0.bcvalues = some bv) :
    (calcEffPropCubic net solveOk effVal face1 face2 s0).1.dirLabel = s0.dirLabel ∧
    (calcEffPropCubic net solveOk effVal face1 face2 s0).1.bcval = s0.bcval ∧
    (calcEffPropCubic net solveOk effVal face1 face2 s0).1.bctypes = s0.bctypes ∧
    (calcEffPropCubic net solveOk effVal face1 face2 s0).1.bcvalues = s0.bcvalues ∧
    ∃ r, (calcEffPropCubic net solveOk effVal face1 face2 s0).2 = .ok r := by
  obtain ⟨sd, sb, sbt, sbv, t1, t2, t3, t4⟩ := s0
  simp only at hd hb ht hv
  subst hd hb ht hv
  have hsave : savePhase ⟨some d, some b, some bt, some bv, t1, t2, t3, t4⟩ =
      ⟨none, none, none, none, some d, some b, some bt, some bv⟩ := rfl
  set pairs := calcPairs face1 face2 with hpairs
  have hres := effLoop_result net solveOk effVal hso pairs 0
    (savePhase ⟨some d, some b, some bt, some bv, t1, t2, t3, t4⟩) [] (fun _ _ => 0)
  have htmp := effLoop_temps net solveOk effVal pairs 0
    (savePhase ⟨some d, some b, some bt, some bv, t1, t2, t3, t4⟩) [] (fun _ _ => 0)
  rcases hE : effLoop net solveOk effVal pairs 0
      (savePhase ⟨some d, some b, some bt, some bv, t1, t2, t3, t4⟩) []
      (fun _ _ => 0) with ⟨s2, r2⟩
  rw [hE] at hres htmp
  simp only at hres htmp
  rcases htmp with ⟨htm1, htm2, htm3, htm4⟩
  rw [hsave] at htm1 htm2 htm3 htm4
  simp only at htm1 htm2 htm3 htm4
  have hcalc : calcEffPropCubic net solveOk effVal face1 face2
      ⟨some d, some b, some bt, some bv, t1, t2, t3, t4⟩ =
      (restorePhase s2,
       .ok (if pairs.length < 3 then
          .map ([] ++ (List.enumFrom 0 pairs).map
            (fun ip => (ip.2.1 ++ "/" ++ ip.2.2, effVal ip.1)))
        else if pairs.length = 3 then
          .tensor ((List.enumFrom 0 pairs).foldl
            (fun tt ip => tensorUpdate tt ip.2.1 (effVal ip.1)) (fun _ _ => 0))
        else .noneResult)) := by
    rw [calcEffPropCubic, ← hpairs, hE, hres]
  have hrest : restorePhase s2 =
      { s2 with dirLabel := some d, bcval := some b, bctypes := some bt,
                bcvalues := some bv, dirTemp := none, bcvalTemp := none,
                bctypesTemp := none, bcvaluesTemp := none } := by
    rw [restorePhase]
    rw [htm1, htm2, htm3, htm4]
  rw [hcalc, hrest]
  exact ⟨rfl, rfl, rfl, rfl, _, rfl⟩

/-- Four isolated pores; faces `front` and `back` are pores 0 and 1. -/
def net7 : Network :=
  { numPores := 4
    conns := []
    internal := fun _ => true
    crossSection := fun _ => 0
    coords := fun _ => (0, 0, 0)
    faceLabel := fun l => if l = "front" then [0]
      else if l = "back" then [1] else [] }

/-- A prior BC state: pore 2 carries the Dirichlet label with value 5. -/
def s0C7 : BCState :=
  { dirLabel := some [2]
    bcval := some fun _ => 5
    bctypes := some fun _ => 1
    bcvalues := some fun _ => 5
    dirTemp := none
    bcvalTemp := none
    bctypesTemp := none
    bcvaluesTemp := none }

/-- Counterexample for C7 as stated: when the inner solve raises, the
estimator propagates the exception without restoring the prior BC state —
the Dirichlet label leaves as faces `[0, 1]`, not the prior `[2]`. -/
theorem claim_C7_counterexample :
    (calcEffPropCubic net7 (fun _ => false) (fun _ => 0)
        ["front"] ["back"] s0C7).1.dirLabel = some [0, 1] ∧
    s0C7.dirLabel = some [2] ∧
    (calcEffPropCubic net7 (fun _ => false) (fun _ => 0)
        ["front"] ["back"] s0C7).1.dirLabel ≠ s0C7.dirLabel :=
  ⟨rfl, rfl, by decide⟩

/-- Witness for C7 amended: with a succeeding solve, the estimator hands the
prior BC state back unchanged. -/
theorem claim_C7_scoped_override_amended_witness :
    (calcEffPropCubic net7 (fun _ => true) (fun _ => 0)
        ["front"] ["back"] s0C7).1.dirLabel = s0C7.dirLabel ∧
    (calcEffPropCubic net7 (fun _ => true) (fun _ => 0)
        ["front"] ["back"] s0C7).1.bctypes = s0C7.bctypes := by
  have h := claim_C7_scoped_override_amended net7 (fun _ => true) (fun _ => 0)
    ["front"] ["back"] s0C7 (fun _ => rfl) [2] (fun _ => 5) (fun _ => 1)
    (fun _ => 5) rfl rfl rfl rfl
  exact ⟨h.1, h.2.2.1⟩

/-- Lines 334-350: detection of which coordinate is constant across a face —
the code tests x, then y, then z with `sp.size(sp.unique(...)) == 1` (this
feeds only the geometric length/area of the coefficient formula; sentinel 3
for no constant coordinate, where the code would crash on an unbound name). -/
def constCoordAxis (net : Network) (face : String) : ℕ :=
  if (npUnique ((net.faceLabel face).map fun p => (net.coords p).1)).length = 1
    then 0
  else if (npUnique ((net.faceLabel face).map fun p =>
      (net.coords p).2.1)).length = 1 then 1
  else if (npUnique ((net.faceLabel face).map fun p =>
      (net.coords p).2.2)).length = 1 then 2
  else 3

/-- The tensor entry of an estimator outcome (0 when it is not a tensor). -/
def tensorEntryOf (r : Except Unit EffResult) (i j : ℕ) : ℚ :=
  match r with
  | .ok (.tensor t) => t i j
  | _ => 0

/-- Claim C9 amended: with fewer than 3 face pairs the estimator returns the
mapping from `face1/face2` names to the per-pair coefficients; with exactly 3
pairs it returns a 3×3 tensor whose off-diagonal entries are all zero and
whose diagonal slots are chosen by the face1 *names* (front/back row 0,
right/left row 1, top/bottom row 2) — not by coordinate detection. -/
theorem claim_C9_eff_result_amended (net : Network) (solveOk : ℕ → Bool)
    (effVal : ℕ → ℚ) (s0 : BCState) (hso : ∀ i, solveOk i = true) :
    (∀ face1 face2 : List String, (face1.isEmpty && face2.isEmpty) = false →
      (face1.zip face2).length < 3 →
      (calcEffPropCubic net solveOk effVal face1 face2 s0).2 =
        .ok (.map ((face1.zip face2).enum.map fun ip =>
          (ip.2.1 ++ "/" ++ ip.2.2, effVal ip.1)))) ∧
    (∀ (a1 a2 a3 b1 b2 b3 : String) (k1 k2 k3 : ℕ),
      nameAxis a1 = some k1 → nameAxis a2 = some k2 → nameAxis a3 = some k3 →
      k1 ≠ k2 → k1 ≠ k3 → k2 ≠ k3 →
      ∃ t, (calcEffPropCubic net solveOk effVal [a1, a2, a3]
          [b1, b2, b3] s0).2 = .ok (.tensor t) ∧
        (∀ i j, i ≠ j → t i j = 0) ∧
        t k1 k1 = effVal 0 ∧ t k2 k2 = effVal 1 ∧ t k3 k3 = effVal 2) := by
  constructor
  · intro face1 face2 hne hlen
    have hpz : calcPairs face1 face2 = face1.zip face2 := by
      rw [calcPairs, hne]
      simp
    have hres := effLoop_result net solveOk effVal hso (face1.zip face2) 0
      (savePhase s0) [] (fun _ _ => 0)
    rcases hE : effLoop net solveOk effVal (face1.zip face2) 0 (savePhase s0) []
      (fun _ _ => 0) with ⟨s2, r2⟩
    rw [hE] at hres
    simp only at hres
    subst hres
    rw [calcEffPropCubic, hpz, hE]
    simp only [if_pos hlen, List.nil_append, List.enum]
  · intro a1 a2 a3 b1 b2 b3 k1 k2 k3 hk1 hk2 hk3 h12 h13 h23
    have hpz : calcPairs [a1, a2, a3] [b1, b2, b3] =
        [(a1, b1), (a2, b2), (a3, b3)] := rfl
    have hres := effLoop_result net solveOk effVal hso
      [(a1, b1), (a2, b2), (a3, b3)] 0 (savePhase s0) [] (fun _ _ => 0)
    rcases hE : effLoop net solveOk effVal [(a1, b1), (a2, b2), (a3, b3)] 0
      (savePhase s0) [] (fun _ _ => 0) with ⟨s2, r2⟩
    rw [hE] at hres
    simp only at hres
    subst hres
    have hnorm : (List.enumFrom 0 [(a1, b1), (a2, b2), (a3, b3)]).foldl
        (fun tt ip => tensorUpdate tt ip.2.1 (effVal ip.1)) (fun _ _ => 0) =
        fun i j =>
          if i = k3 ∧ j = k3 then effVal 2
          else if i = k2 ∧ j = k2 then effVal 1
          else if i = k1 ∧ j = k1 then effVal 0
          else 0 := by
      simp only [List.enumFrom_cons, List.enumFrom_nil, List.foldl_cons,
        List.foldl_nil, tensorUpdate, hk1, hk2, hk3]
    refine ⟨List.foldl (fun tt ip => tensorUpdate tt ip.2.1 (effVal ip.1))
      (fun _ _ => 0) (List.enumFrom 0 [(a1, b1), (a2, b2), (a3, b3)]),
      ?_, ?_, ?_, ?_, ?_⟩
    · rw [calcEffPropCubic, hpz, hE]
      simp only
      rw [if_neg (by simp), if_pos (by simp)]
    · intro i j hij
      rw [hnorm]
      simp only
      rw [if_neg fun hc => hij (hc.1.trans hc.2.symm),
        if_neg fun hc => hij (hc.1.trans hc.2.symm),
        if_neg fun hc => hij (hc.1.trans hc.2.symm)]
    · rw [hnorm]
      simp only
      rw [if_neg fun hc => h13 hc.1, if_neg fun hc => h12 hc.1,
        if_pos ⟨trivial, trivial⟩]
    · rw [hnorm]
      simp only
      rw [if_neg fun hc => h23 hc.1, if_pos ⟨trivial, trivial⟩]
    · rw [hnorm]
      simp only
      rw [if_pos ⟨trivial, trivial⟩]

/-- Six isolated pores, one per named face, all at the origin (so every
single-pore face has all three coordinates constant and the x-test of the
constant-coordinate detection fires first). -/
def net9 : Network :=
  { numPores := 6
    conns := []
    internal := fun _ => true
    crossSection := fun _ => 0
    coords := fun _ => (0, 0, 0)
    faceLabel := fun l =>
      if l = "top" then [0]
      else if l = "bottom" then [1]
      else if l = "right" then [2]
      else if l = "left" then [3]
      else if l = "front" then [4]
      else if l = "back" then [5]
      else [] }

def effVal9 : ℕ → ℚ := fun i => if i = 0 then 3 else if i = 1 then 5 else 7

def s0C9 : BCState :=
  { dirLabel := none
    bcval := none
    bctypes := none
    bcvalues := none
    dirTemp := none
    bcvalTemp := none
    bctypesTemp := none
    bcvaluesTemp := none }

/-- Witness for C9 amended: one pair gives the scalar mapping; the standard
three pairs give the tensor with zero off-diagonals and the name-decided
diagonal placement. -/
theorem claim_C9_eff_result_amended_witness :
    (calcEffPropCubic net9 (fun _ => true) effVal9 ["front"] ["back"] s0C9).2 =
      .ok (.map (((["front"].zip ["back"]).enum).map fun ip =>
        (ip.2.1 ++ "/" ++ ip.2.2, effVal9 ip.1))) ∧
    ∃ t, (calcEffPropCubic net9 (fun _ => true) effVal9
        ["front", "right", "top"] ["back", "left", "bottom"] s0C9).2 =
      .ok (.tensor t) ∧
      (∀ i j, i ≠ j → t i j = 0) ∧
      t 0 0 = effVal9 0 ∧ t 1 1 = effVal9 1 ∧ t 2 2 = effVal9 2 := by
  have h := claim_C9_eff_result_amended net9 (fun _ => true) effVal9 s0C9
    (fun _ => rfl)
  exact ⟨h.1 ["front"] ["back"] rfl (by decide),
    h.2 "front" "right" "top" "back" "left" "bottom" 0 1 2 rfl rfl rfl
      (by decide) (by decide) (by decide)⟩

/-- Counterexample for C9 as stated: with the three pairs
(top/bottom, right/left, front/back) the constant coordinate across face
`top` is the x axis (axis 0), so the claim's placement rule would put the
top pair's coefficient `effVal9 0 = 3` at position (0,0); the code places by
face *name* and position (0,0) actually holds the front pair's coefficient 7. -/
theorem claim_C9_counterexample :
    constCoordAxis net9 "top" = 0 ∧
    effVal9 0 = 3 ∧
    tensorEntryOf (calcEffPropCubic net9 (fun _ => true) effVal9
      ["top", "right", "front"] ["bottom", "left", "back"] s0C9).2
      (constCoordAxis net9 "top") (constCoordAxis net9 "top") = 7 ∧
    tensorEntryOf (calcEffPropCubic net9 (fun _ => true) effVal9
      ["top", "right", "front"] ["bottom", "left", "back"] s0C9).2
      (constCoordAxis net9 "top") (constCoordAxis net9 "top") ≠ effVal9 0 := by
  refine ⟨rfl, rfl, rfl, ?_⟩
  intro h
  rw [show tensorEntryOf (calcEffPropCubic net9 (fun _ => true) effVal9
      ["top", "right", "front"] ["bottom", "left", "back"] s0C9).2
      (constCoordAxis net9 "top") (constCoordAxis net9 "top") = 7 from rfl] at h
  rw [show effVal9 0 = 3 from rfl] at h
  exact absurd h (by decide)

end OpenPNM
